import Mathlib

/-!
# Verification of the taquin-n sliding-puzzle solver

Shallow embedding of the puzzle core of the repository:
* `common/board.py` — `Direction`, `Board`
* `solvers/solver.py` — `Solver.get_inversions`, `Solver.is_solvable`,
  `SolutionStatus`, `SolutionInfo`
* `solvers/dfs.py` — `State`, `DFSSolver.solve`
* `solvers/bfs.py` — `State` (textually identical to the DFS one), `BFSSolver.solve`
* `solvers/astar.py` — `State` (with `g_cost`/`h_cost`), `AStarSolver.solve`,
  together with Python's `heapq` (`heappush`/`heappop`)

Python `int` values are embedded as `Nat` (all tile values and indices are
non-negative), Python lists as `List`, Python sets of state tuples as
`List (List Nat)` queried only through membership, and Python `None` results
as `Option`.  Loops that are not structurally recursive carry an explicit
fuel argument; the fuel given at each call site is provably larger than the
number of iterations the Python loop can perform, so the embedded functions
agree with the source on every input they are applied to.
-/

/-- `Direction` from `common/board.py`: the direction the blank moves. -/
inductive Direction where
  | UP
  | DOWN
  | LEFT
  | RIGHT
deriving DecidableEq, Repr

/-- The `State` dataclass shared (textually identical) by `solvers/dfs.py` and
`solvers/bfs.py`: a flattened board, the blank index, the board size and the
move path taken since the search root. -/
structure PState where
  state : List Nat
  blank_pos : Nat
  size : Nat
  path : List Direction
deriving DecidableEq, Repr

/-- `State.manhattan_distance` from `solvers/dfs.py` / `solvers/bfs.py`:
sum over all non-blank tiles of the L1 distance between the current and the
goal cell of the tile.  Python's `abs` of a difference of ints is `Nat.dist`. -/
def PState.manhattan_distance (s : PState) : Nat :=
  ((List.range s.state.length).map (fun pos =>
    let value := s.state.getD pos 0
    if value ≠ 0 then
      Nat.dist (pos / s.size) ((value - 1) / s.size) +
        Nat.dist (pos % s.size) ((value - 1) % s.size)
    else 0)).sum

/-- `State.is_goal`: the flattened array is `[1, 2, ..., len-1, 0]`. -/
def PState.is_goal (s : PState) : Bool :=
  (List.range s.state.length).all (fun i =>
    if i = s.state.length - 1 then s.state.getD i 0 == 0
    else s.state.getD i 0 == i + 1)

/-- `State.get_possible_moves`: UP/DOWN/LEFT/RIGHT filtered by the blank's
row and column, appended in this fixed order. -/
def PState.get_possible_moves (s : PState) : List Direction :=
  let row := s.blank_pos / s.size
  let col := s.blank_pos % s.size
  ((((if 0 < row then [Direction.UP] else []) ++
    (if row < s.size - 1 then [Direction.DOWN] else [])) ++
    (if 0 < col then [Direction.LEFT] else [])) ++
    (if col < s.size - 1 then [Direction.RIGHT] else []))

/-- `State.make_move`: swap the blank with the adjacent tile in direction `d`,
update the blank index and append `d` to the path; `none` when the move is
not legal (Python returns `None`). -/
def PState.make_move (s : PState) (d : Direction) : Option PState :=
  let row := s.blank_pos / s.size
  let col := s.blank_pos % s.size
  let new_pos? : Option Nat :=
    match d with
    | .UP => if 0 < row then some (s.blank_pos - s.size) else none
    | .DOWN => if row < s.size - 1 then some (s.blank_pos + s.size) else none
    | .LEFT => if 0 < col then some (s.blank_pos - 1) else none
    | .RIGHT => if col < s.size - 1 then some (s.blank_pos + 1) else none
  match new_pos? with
  | none => none
  | some new_pos =>
    let new_state :=
      (s.state.set s.blank_pos (s.state.getD new_pos 0)).set new_pos
        (s.state.getD s.blank_pos 0)
    some { state := new_state, blank_pos := new_pos, size := s.size,
           path := s.path ++ [d] }

/-- `Board` from `common/board.py`: flattened state, board size, blank index. -/
structure Board where
  size : Nat
  state : List Nat
  blank_pos : Nat
deriving DecidableEq, Repr

/-- `Board.__init__`: flatten the 2D grid row-major; `blank_pos` is set each
time a `0` cell is encountered (so it records the last occurrence of `0`). -/
def Board.ofGrid (initial_state : List (List Nat)) : Board :=
  let size := initial_state.length
  let state := (List.range size).flatMap (fun i =>
    (List.range size).map (fun j => (initial_state.getD i []).getD j 0))
  let blank_pos := (List.range state.length).foldl
    (fun b i => if state.getD i 0 = 0 then i else b) 0
  { size := size, state := state, blank_pos := blank_pos }

/-- `Board.get_state`: the internal 1D state reshaped to a 2D list.
(Python indexes `self.state[i*size+j]`, which never falls out of range on a
board built from an N×N grid; the `getD` default is unreachable there.) -/
def Board.get_state (b : Board) : List (List Nat) :=
  (List.range b.size).map (fun i =>
    (List.range b.size).map (fun j => b.state.getD (i * b.size + j) 0))

/-- `Board.get_size`. -/
def Board.get_size (b : Board) : Nat := b.size

/-- `Board.is_goal` (same loop as `State.is_goal`). -/
def Board.is_goal (b : Board) : Bool :=
  (List.range b.state.length).all (fun i =>
    if i = b.state.length - 1 then b.state.getD i 0 == 0
    else b.state.getD i 0 == i + 1)

/-- `Board.get_possible_moves` (same as `State.get_possible_moves`). -/
def Board.get_possible_moves (b : Board) : List Direction :=
  let row := b.blank_pos / b.size
  let col := b.blank_pos % b.size
  ((((if 0 < row then [Direction.UP] else []) ++
    (if row < b.size - 1 then [Direction.DOWN] else [])) ++
    (if 0 < col then [Direction.LEFT] else [])) ++
    (if col < b.size - 1 then [Direction.RIGHT] else []))

/-- `Board.make_move`: the in-place variant; returns the success flag together
with the board after the mutation (unchanged when the move is illegal). -/
def Board.make_move (b : Board) (d : Direction) : Bool × Board :=
  let row := b.blank_pos / b.size
  let col := b.blank_pos % b.size
  let new_pos? : Option Nat :=
    match d with
    | .UP => if 0 < row then some (b.blank_pos - b.size) else none
    | .DOWN => if row < b.size - 1 then some (b.blank_pos + b.size) else none
    | .LEFT => if 0 < col then some (b.blank_pos - 1) else none
    | .RIGHT => if col < b.size - 1 then some (b.blank_pos + 1) else none
  match new_pos? with
  | none => (false, b)
  | some new_pos =>
    (true,
      { b with
        state := (b.state.set b.blank_pos (b.state.getD new_pos 0)).set new_pos
          (b.state.getD b.blank_pos 0),
        blank_pos := new_pos })

/-- `Board.manhattan_distance` (same sum as `State.manhattan_distance`). -/
def Board.manhattan_distance (b : Board) : Nat :=
  ((List.range b.state.length).map (fun pos =>
    let value := b.state.getD pos 0
    if value ≠ 0 then
      Nat.dist (pos / b.size) ((value - 1) / b.size) +
        Nat.dist (pos % b.size) ((value - 1) % b.size)
    else 0)).sum

/-- `State.from_board` (`dfs.py` / `bfs.py`): flatten `board.get_state()`
(`sum(..., [])` is list concatenation) and start with an empty path. -/
def PState.from_board (b : Board) : PState :=
  { state := (Board.get_state b).flatten,
    blank_pos := b.blank_pos,
    size := b.get_size,
    path := [] }

/-- `SolutionStatus` from `solvers/solver.py`. -/
inductive SolutionStatus where
  | SOLVED
  | ALREADY_SOLVED
  | UNSOLVABLE
  | NO_SOLUTION
deriving DecidableEq, Repr

/-- Values a field of the (dynamically typed) `SolutionInfo` dataclass ends up
holding in this program: Python `None`, a `SolutionStatus`, a list of
directions, or an int.  `bfs.py` and `astar.py` pass the move path and the
`optimal_length` argument *positionally*, so their `status` field receives a
list of directions and their `moves` field receives an optional int; the sum
type records exactly which kind of value each field holds. -/
inductive PyField where
  | none
  | status (s : SolutionStatus)
  | dirs (l : List Direction)
  | nat (n : Nat)
deriving DecidableEq, Repr

/-- `SolutionInfo` from `solvers/solver.py` (fields default to `None`). -/
structure SolutionInfo where
  status : PyField
  moves : PyField := PyField.none
  optimal_length : PyField := PyField.none
deriving DecidableEq, Repr

/-- Embeds an `Optional[int]` argument stored into a `SolutionInfo` field. -/
def pyOptNat : Option Nat → PyField
  | Option.none => PyField.none
  | Option.some n => PyField.nat n

/-- `Solver.get_inversions` (`solvers/solver.py`): pairs `i < j` of non-blank
values out of order in the flattened state. -/
def Solver.get_inversions (b : Board) : Nat :=
  let state := (Board.get_state b).flatten
  ((List.range state.length).map (fun i =>
    if state.getD i 0 = 0 then 0
    else ((List.range' (i + 1) (state.length - (i + 1))).map (fun j =>
      if state.getD j 0 = 0 then 0
      else if state.getD j 0 < state.getD i 0 then 1 else 0)).sum)).sum

/-- `Solver.is_solvable` (`solvers/solver.py`): parity test on the inversion
count, using `size - blank_row` on even sizes. -/
def Solver.is_solvable (b : Board) : Bool :=
  let size := b.get_size
  let inversions := Solver.get_inversions b
  let blank_row := b.blank_pos / size
  if size % 2 = 1 then decide (inversions % 2 = 0)
  else decide ((inversions + (size - blank_row)) % 2 = 0)

/-! ## Depth-first solver (`solvers/dfs.py`) -/

/-- `DFSSolver.get_ordered_moves`: the fixed priority order UP, LEFT, DOWN,
RIGHT filtered by the currently possible moves. -/
def DFSSolver.get_ordered_moves (s : PState) : List Direction :=
  let priority := [Direction.UP, Direction.LEFT, Direction.DOWN, Direction.RIGHT]
  priority.filter (fun m => m ∈ s.get_possible_moves)

/-- `DFSSolver.is_reverse_move`: `new_move` exactly undoes `last_move`. -/
def DFSSolver.is_reverse_move (last_move : Option Direction)
    (new_move : Direction) : Bool :=
  match last_move with
  | Option.none => false
  | Option.some l =>
    (l == Direction.UP && new_move == Direction.DOWN) ||
    (l == Direction.DOWN && new_move == Direction.UP) ||
    (l == Direction.LEFT && new_move == Direction.RIGHT) ||
    (l == Direction.RIGHT && new_move == Direction.LEFT)

mutual

/-- `DFSSolver.dfs_with_depth_limit`: depth-limited DFS with a global
`visited` set (threaded through and returned, since Python mutates it in
place) and the `current_path` ancestor set (restored on backtracking, so the
caller's value is reused after a failed child).  The debug printing and node
counters of the source are side effects without influence on the result and
are omitted.  `fuel` bounds the recursion depth; the depth-limit guard stops
the recursion after at most `depth_limit + 1` nested calls, so any fuel
larger than that reproduces the source exactly. -/
def DFSSolver.dfs_with_depth_limit : Nat → PState → List (List Nat) →
    List (List Nat) → Nat → Option PState × List (List Nat)
  | 0, _, visited, _, _ => (Option.none, visited)
  | fuel + 1, s, visited, current_path, depth_limit =>
    if s.is_goal then (Option.some s, visited)
    else if depth_limit ≤ s.path.length then (Option.none, visited)
    else
      let last_move := s.path.getLast?
      DFSSolver.dfs_try fuel s last_move (DFSSolver.get_ordered_moves s)
        visited current_path depth_limit

/-- The `for direction in moves_to_try` loop inside
`DFSSolver.dfs_with_depth_limit`: skip reverse moves and visited or on-path
children, otherwise record the child and recurse, returning the first
success. -/
def DFSSolver.dfs_try : Nat → PState → Option Direction → List Direction →
    List (List Nat) → List (List Nat) → Nat → Option PState × List (List Nat)
  | 0, _, _, _, visited, _, _ => (Option.none, visited)
  | _ + 1, _, _, [], visited, _, _ => (Option.none, visited)
  | fuel + 1, s, last_move, d :: rest, visited, current_path, depth_limit =>
    if DFSSolver.is_reverse_move last_move d then
      DFSSolver.dfs_try fuel s last_move rest visited current_path depth_limit
    else
      match s.make_move d with
      | Option.none =>
        DFSSolver.dfs_try fuel s last_move rest visited current_path depth_limit
      | Option.some next_state =>
        if next_state.state ∈ current_path ∨ next_state.state ∈ visited then
          DFSSolver.dfs_try fuel s last_move rest visited current_path depth_limit
        else
          match DFSSolver.dfs_with_depth_limit fuel next_state
            (next_state.state :: visited) (next_state.state :: current_path)
            depth_limit with
          | (Option.some r, v) => (Option.some r, v)
          | (Option.none, v) =>
            DFSSolver.dfs_try fuel s last_move rest v current_path depth_limit

end

/-- `Config.MAX_DEPTH_DFS` from `common/utils.py`. -/
def Config.MAX_DEPTH_DFS : Nat := 30

/-- `Config.MAX_DEPTH_BFS` from `common/utils.py`. -/
def Config.MAX_DEPTH_BFS : Nat := 30

/-- Fuel for the embedded DFS recursion: far beyond the `depth_limit + 1`
nesting that the depth guard allows (each level consumes at most five fuel
units, one per tried direction plus one per nested call). -/
def DFSSolver.fuel : Nat := 100000

/-- The `for depth_limit in range(1, self.max_depth + 1)` loop of
`DFSSolver.solve`: fresh `visited` set each iteration, `current_path` seeded
with the root configuration. -/
def DFSSolver.deepen (root : PState) : List Nat → Option PState
  | [] => Option.none
  | depth_limit :: rest =>
    match DFSSolver.dfs_with_depth_limit DFSSolver.fuel root []
      [root.state] depth_limit with
    | (Option.some r, _) => Option.some r
    | (Option.none, _) => DFSSolver.deepen root rest

/-- `DFSSolver.solve`: ALREADY_SOLVED on a solved root, UNSOLVABLE when the
parity check fails, otherwise iterative deepening with limits `1..30`;
SOLVED carries the found path in `moves`, NO_SOLUTION reports exhaustion. -/
def DFSSolver.solve (b : Board) (optimal_length : Option Nat) : SolutionInfo :=
  let initial_state := PState.from_board b
  if initial_state.is_goal then
    { status := PyField.status SolutionStatus.ALREADY_SOLVED }
  else if ¬ Solver.is_solvable b then
    { status := PyField.status SolutionStatus.UNSOLVABLE }
  else
    match DFSSolver.deepen initial_state
      (List.range' 1 Config.MAX_DEPTH_DFS) with
    | Option.some solution =>
      { status := PyField.status SolutionStatus.SOLVED,
        moves := PyField.dirs solution.path,
        optimal_length := pyOptNat optimal_length }
    | Option.none =>
      { status := PyField.status SolutionStatus.NO_SOLUTION }

/-! ## Breadth-first solver (`solvers/bfs.py`) -/

/-- Move evaluation quality strings; only the comparison against `"BAD"` is
ever used by the algorithms. -/
inductive Quality where
  | VALID
  | BEST
  | MID
  | BAD
deriving DecidableEq, Repr

/-- `BFSSolver.evaluate_move`: BAD exactly when the child configuration is
already in the visited set (the accompanying reason string is unused). -/
def BFSSolver.evaluate_move (next_state : PState)
    (visited : List (List Nat)) : Quality :=
  if next_state.state ∈ visited then Quality.BAD else Quality.VALID

/-- One `while queue` iteration body plus the loop, fueled.  The queue holds
`(state, level)` pairs; `visited` records configurations at enqueue time.
The possible-move list is computed before the goal test exactly as in the
source (it has no effect there); children are enqueued only below the depth
ceiling and only when not already visited. -/
def BFSSolver.loop : Nat → List (PState × Nat) → List (List Nat) →
    Option Nat → Option SolutionInfo
  | 0, _, _, _ => Option.none
  | _ + 1, [], _, _ => Option.none
  | fuel + 1, (current_state, level) :: queue, visited, optimal_length =>
    let possible_moves :=
      current_state.get_possible_moves.filterMap (fun d =>
        (current_state.make_move d).map (fun next_state =>
          (d, next_state, BFSSolver.evaluate_move next_state visited)))
    if current_state.is_goal then
      Option.some
        { status := PyField.dirs current_state.path,
          moves := pyOptNat optimal_length }
    else if Config.MAX_DEPTH_BFS ≤ level then
      BFSSolver.loop fuel queue visited optimal_length
    else
      let step := possible_moves.foldl
        (fun (acc : List (PState × Nat) × List (List Nat)) m =>
          if m.2.2 ≠ Quality.BAD ∧ m.2.1.state ∉ acc.2 then
            (acc.1 ++ [(m.2.1, level + 1)], m.2.1.state :: acc.2)
          else acc)
        (queue, visited)
      BFSSolver.loop fuel step.1 step.2 optimal_length

/-- Fuel for the embedded BFS loop: more than the number of pops the loop can
ever perform (each pop removes one queue entry and every configuration is
enqueued at most once, so the pops are bounded by the number of distinct
board configurations ever enqueued). -/
def BFSSolver.fuel : Nat := 10 ^ 12

/-- `BFSSolver.solve`: seed the queue with the root at level 0 (already
visited) and run the loop; Python returns `None` when the queue empties. -/
def BFSSolver.solve (b : Board) (optimal_length : Option Nat) :
    Option SolutionInfo :=
  let initial_state := PState.from_board b
  BFSSolver.loop BFSSolver.fuel [(initial_state, 0)] [initial_state.state]
    optimal_length

/-! ## A* solver (`solvers/astar.py`) with Python's `heapq` -/

/-- The `State` dataclass of `solvers/astar.py`: the shared fields plus the
accumulated cost `g_cost` and the heuristic estimate `h_cost`. -/
structure AState where
  state : List Nat
  blank_pos : Nat
  size : Nat
  path : List Direction
  g_cost : Nat
  h_cost : Nat
deriving DecidableEq, Repr

/-- `State.f_cost`. -/
def AState.f_cost (a : AState) : Nat := a.g_cost + a.h_cost

/-- `State.__lt__`: order by `f_cost`; on ties prefer the larger `g_cost`. -/
def AState.lt (a b : AState) : Bool :=
  if a.f_cost = b.f_cost then decide (b.g_cost < a.g_cost)
  else decide (a.f_cost < b.f_cost)

/-- `State.manhattan_distance` of `astar.py` (same sum as the other two). -/
def AState.manhattan_distance (a : AState) : Nat :=
  ((List.range a.state.length).map (fun pos =>
    let value := a.state.getD pos 0
    if value ≠ 0 then
      Nat.dist (pos / a.size) ((value - 1) / a.size) +
        Nat.dist (pos % a.size) ((value - 1) % a.size)
    else 0)).sum

/-- `State.is_goal` of `astar.py`. -/
def AState.is_goal (a : AState) : Bool :=
  (List.range a.state.length).all (fun i =>
    if i = a.state.length - 1 then a.state.getD i 0 == 0
    else a.state.getD i 0 == i + 1)

/-- `State.get_possible_moves` of `astar.py`. -/
def AState.get_possible_moves (a : AState) : List Direction :=
  let row := a.blank_pos / a.size
  let col := a.blank_pos % a.size
  ((((if 0 < row then [Direction.UP] else []) ++
    (if row < a.size - 1 then [Direction.DOWN] else [])) ++
    (if 0 < col then [Direction.LEFT] else [])) ++
    (if col < a.size - 1 then [Direction.RIGHT] else []))

/-- `State.make_move` of `astar.py`: the shared swap, with
`g_cost` incremented and `h_cost` recomputed on the new state. -/
def AState.make_move (a : AState) (d : Direction) : Option AState :=
  let row := a.blank_pos / a.size
  let col := a.blank_pos % a.size
  let new_pos? : Option Nat :=
    match d with
    | .UP => if 0 < row then some (a.blank_pos - a.size) else none
    | .DOWN => if row < a.size - 1 then some (a.blank_pos + a.size) else none
    | .LEFT => if 0 < col then some (a.blank_pos - 1) else none
    | .RIGHT => if col < a.size - 1 then some (a.blank_pos + 1) else none
  match new_pos? with
  | none => none
  | some new_pos =>
    let new_state :=
      (a.state.set a.blank_pos (a.state.getD new_pos 0)).set new_pos
        (a.state.getD a.blank_pos 0)
    let next_state : AState :=
      { state := new_state, blank_pos := new_pos, size := a.size,
        path := a.path ++ [d], g_cost := a.g_cost + 1, h_cost := 0 }
    some { next_state with h_cost := next_state.manhattan_distance }

/-- `State.from_board` of `astar.py`: `g_cost = 0`, `h_cost` computed by
`board.manhattan_distance()`. -/
def AState.from_board (b : Board) : AState :=
  { state := (Board.get_state b).flatten,
    blank_pos := b.blank_pos,
    size := b.get_size,
    path := [],
    g_cost := 0,
    h_cost := b.manhattan_distance }

/-- `heapq._siftdown` (bubble the freshly appended item up): loop while
`startpos < pos`, moving the parent down whenever `newitem < parent`.  The
fuel is always called with at least `pos + 1`, which bounds the number of
iterations since `pos` strictly decreases. -/
def Heapq.siftdown {α : Type} (lt : α → α → Bool) :
    Nat → List α → α → Nat → Nat → List α
  | 0, heap, newitem, _, pos => heap.set pos newitem
  | fuel + 1, heap, newitem, startpos, pos =>
    if startpos < pos then
      let parentpos := (pos - 1) / 2
      let parent := heap.getD parentpos newitem
      if lt newitem parent then
        Heapq.siftdown lt fuel (heap.set pos parent) newitem startpos parentpos
      else heap.set pos newitem
    else heap.set pos newitem

/-- `heapq._siftup` (move the root down to a leaf, then sift back up): loop
while the left child index is in range, always descending to the smaller
child.  `pos` at least doubles each iteration, so fuel `heap.length + 1`
always suffices. -/
def Heapq.siftup {α : Type} (lt : α → α → Bool) :
    Nat → List α → α → Nat → Nat → List α
  | 0, heap, newitem, startpos, pos =>
    Heapq.siftdown lt (pos + 1) (heap.set pos newitem) newitem startpos pos
  | fuel + 1, heap, newitem, startpos, pos =>
    let endpos := heap.length
    let childpos := 2 * pos + 1
    if childpos < endpos then
      let rightpos := childpos + 1
      let childpos :=
        if rightpos < endpos ∧
            ¬ lt (heap.getD childpos newitem) (heap.getD rightpos newitem) then
          rightpos
        else childpos
      Heapq.siftup lt fuel (heap.set pos (heap.getD childpos newitem)) newitem
        startpos childpos
    else
      Heapq.siftdown lt (pos + 1) (heap.set pos newitem) newitem startpos pos

/-- `heapq.heappush`: append, then sift the new item towards the root. -/
def Heapq.heappush {α : Type} (lt : α → α → Bool) (heap : List α) (item : α) :
    List α :=
  let heap := heap ++ [item]
  Heapq.siftdown lt heap.length heap item 0 (heap.length - 1)

/-- `heapq.heappop`: pop the last element; on a nonempty remainder return the
old root and sift the last element down from the root.  `none` models the
`IndexError` on an empty heap (never reached: the caller pops only while the
open set is nonempty). -/
def Heapq.heappop {α : Type} (lt : α → α → Bool) (heap : List α) :
    Option (α × List α) :=
  match heap.getLast? with
  | Option.none => Option.none
  | Option.some lastelt =>
    let rest := heap.dropLast
    match rest with
    | [] => Option.some (lastelt, [])
    | returnitem :: _ =>
      Option.some (returnitem,
        Heapq.siftup lt (rest.length + 1) (rest.set 0 lastelt) lastelt 0 0)

/-- `AStarSolver.evaluate_move`: BAD when the child is closed or strictly
increases the f-cost; BEST/MID report decreasing/unchanged f-cost. -/
def AStarSolver.evaluate_move (current next_state : AState)
    (closed_set : List (List Nat)) : Quality :=
  if next_state.state ∈ closed_set then Quality.BAD
  else if next_state.f_cost < current.f_cost then Quality.BEST
  else if next_state.f_cost = current.f_cost then Quality.MID
  else Quality.BAD

/-- The `while open_set` loop of `AStarSolver.solve`, fueled: pop the minimum
entry, skip it when already closed, return its path on the goal test, and
otherwise close it and push every non-BAD, non-closed child. -/
def AStarSolver.loop : Nat → List AState → List (List Nat) → Option Nat →
    Option SolutionInfo
  | 0, _, _, _ => Option.none
  | fuel + 1, open_set, closed_set, optimal_length =>
    match Heapq.heappop AState.lt open_set with
    | Option.none => Option.none
    | Option.some (current_state, open_rest) =>
      if current_state.state ∈ closed_set then
        AStarSolver.loop fuel open_rest closed_set optimal_length
      else
        let possible_moves :=
          current_state.get_possible_moves.filterMap (fun d =>
            (current_state.make_move d).map (fun next_state =>
              (d, next_state,
                AStarSolver.evaluate_move current_state next_state closed_set)))
        if current_state.is_goal then
          Option.some
            { status := PyField.dirs current_state.path,
              moves := pyOptNat optimal_length }
        else
          let closed' := current_state.state :: closed_set
          let open' := possible_moves.foldl
            (fun h m =>
              if m.2.2 ≠ Quality.BAD ∧ m.2.1.state ∉ closed' then
                Heapq.heappush AState.lt h m.2.1
              else h)
            open_rest
          AStarSolver.loop fuel open' closed' optimal_length

/-- Fuel for the embedded A* loop: each iteration either discards a stale
heap entry or closes a fresh configuration, both bounded by the number of
pushes ever performed, itself bounded by the finite configuration space. -/
def AStarSolver.fuel : Nat := 10 ^ 12

/-- `AStarSolver.solve`: push the root onto an empty heap and run the loop;
Python returns `None` when the heap empties. -/
def AStarSolver.solve (b : Board) (optimal_length : Option Nat) :
    Option SolutionInfo :=
  let initial_state := AState.from_board b
  AStarSolver.loop AStarSolver.fuel
    (Heapq.heappush AState.lt [] initial_state) [] optimal_length

/-! ## Specification-side notions: replaying moves, goal configuration -/

/-- Apply a move sequence in order via `State.make_move` (`apply_move` of the
specification); `none` as soon as one move is illegal. -/
def PState.replay (s : PState) : List Direction → Option PState
  | [] => Option.some s
  | d :: ms =>
    match s.make_move d with
    | Option.none => Option.none
    | Option.some t => t.replay ms

/-- The goal configuration `[1, 2, ..., m-1, 0]` on `m` cells. -/
def goalConfig (m : Nat) : List Nat :=
  (List.range m).map (fun i => if i = m - 1 then 0 else i + 1)

/-- `moves` solves the puzzle from `s`: replaying it succeeds at every step
and ends in a state satisfying `is_goal`. -/
def SolvesFrom (s : PState) (moves : List Direction) : Prop :=
  ∃ t, s.replay moves = Option.some t ∧ t.is_goal = true

/-- The target index of the blank computed inside `State.make_move`. -/
def PState.newPos (s : PState) (d : Direction) : Option Nat :=
  match d with
  | .UP => if 0 < s.blank_pos / s.size then some (s.blank_pos - s.size) else none
  | .DOWN =>
    if s.blank_pos / s.size < s.size - 1 then some (s.blank_pos + s.size) else none
  | .LEFT => if 0 < s.blank_pos % s.size then some (s.blank_pos - 1) else none
  | .RIGHT =>
    if s.blank_pos % s.size < s.size - 1 then some (s.blank_pos + 1) else none

theorem PState.make_move_eq (s : PState) (d : Direction) :
    s.make_move d = (s.newPos d).map (fun new_pos =>
      { state := (s.state.set s.blank_pos (s.state.getD new_pos 0)).set new_pos
          (s.state.getD s.blank_pos 0),
        blank_pos := new_pos, size := s.size, path := s.path ++ [d] }) := by
  cases d <;> simp only [PState.make_move, PState.newPos] <;> split <;>
    rename_i hsp <;> rw [hsp] <;> rfl

theorem PState.mem_get_possible_moves (s : PState) (d : Direction) :
    d ∈ s.get_possible_moves ↔
      match d with
      | .UP => 0 < s.blank_pos / s.size
      | .DOWN => s.blank_pos / s.size < s.size - 1
      | .LEFT => 0 < s.blank_pos % s.size
      | .RIGHT => s.blank_pos % s.size < s.size - 1 := by
  cases d <;> simp only [PState.get_possible_moves, List.mem_append] <;>
    split_ifs <;> simp_all

theorem PState.make_move_isSome_iff (s : PState) (d : Direction) :
    (s.make_move d).isSome = true ↔ d ∈ s.get_possible_moves := by
  rw [PState.make_move_eq, PState.mem_get_possible_moves]
  cases d <;> simp only [PState.newPos] <;> split_ifs <;> simp_all

/-! ## The swap performed by `make_move` -/

/-- The two-position swap used by every `make_move`. -/
def swapAt (l : List Nat) (a b : Nat) : List Nat :=
  (l.set a (l.getD b 0)).set b (l.getD a 0)

theorem swapAt_length (l : List Nat) (a b : Nat) :
    (swapAt l a b).length = l.length := by
  simp [swapAt]

theorem swapAt_perm (l : List Nat) {a b : Nat} (hab : a ≠ b)
    (ha : a < l.length) (hb : b < l.length) : (swapAt l a b).Perm l := by
  rw [List.perm_iff_count]
  intro c
  have hga : l.getD a 0 = l[a] := List.getD_eq_getElem l 0 ha
  have hgb : l.getD b 0 = l[b] := List.getD_eq_getElem l 0 hb
  have h1 : b < (l.set a (l.getD b 0)).length := by simpa using hb
  have h2 : a < l.length := ha
  have hcount1 : List.count c ((l.set a (l.getD b 0)).set b (l.getD a 0)) =
      (List.count c (l.set a (l.getD b 0)) -
        if ((l.set a (l.getD b 0))[b] == c) = true then 1 else 0) +
      if (l.getD a 0 == c) = true then 1 else 0 :=
    List.count_set _ _ _ _ h1
  have hcount2 : List.count c (l.set a (l.getD b 0)) =
      (List.count c l - if (l[a] == c) = true then 1 else 0) +
      if (l.getD b 0 == c) = true then 1 else 0 :=
    List.count_set _ _ _ _ h2
  have hsb : (l.set a (l.getD b 0))[b] = l[b] := List.getElem_set_ne hab _
  have hge : l[a] = c → 1 ≤ List.count c l := fun h =>
    List.count_pos_iff.mpr (h ▸ List.getElem_mem ha)
  show List.count c ((l.set a (l.getD b 0)).set b (l.getD a 0)) = List.count c l
  rw [hcount1, hcount2, hsb]
  simp only [hga, hgb, beq_iff_eq]
  split_ifs <;> omega

theorem swapAt_getElem_snd (l : List Nat) (a b : Nat)
    (hb : b < (swapAt l a b).length) : (swapAt l a b)[b] = l.getD a 0 :=
  List.getElem_set_self _

/-- The blank-target arithmetic shared by `State.make_move` and
`Board.make_move`, as a function of the size and the blank index. -/
def rawNewPos (n k : Nat) (d : Direction) : Option Nat :=
  match d with
  | .UP => if 0 < k / n then some (k - n) else none
  | .DOWN => if k / n < n - 1 then some (k + n) else none
  | .LEFT => if 0 < k % n then some (k - 1) else none
  | .RIGHT => if k % n < n - 1 then some (k + 1) else none

theorem PState.newPos_eq_raw (s : PState) (d : Direction) :
    s.newPos d = rawNewPos s.size s.blank_pos d := by
  cases d <;> rfl

theorem rawNewPos_spec {n k p : Nat} {d : Direction}
    (h : rawNewPos n k d = some p) (hb : k < n * n) :
    p < n * n ∧ p ≠ k ∧
      Nat.dist (p / n) (k / n) + Nat.dist (p % n) (k % n) = 1 := by
  have hn : 0 < n := by
    rcases Nat.eq_zero_or_pos n with h0 | h0
    · subst h0; omega
    · exact h0
  have hqr : n * (k / n) + k % n = k := Nat.div_add_mod k n
  have hr : k % n < n := Nat.mod_lt _ hn
  have hq : k / n < n := by
    rw [Nat.div_lt_iff_lt_mul hn]; omega
  cases d
  all_goals simp only [rawNewPos] at h
  all_goals split_ifs at h with hc
  all_goals cases h
  · -- UP
    have hkn : n ≤ k := by
      by_contra hlt
      push_neg at hlt
      rw [Nat.div_eq_of_lt hlt] at hc
      omega
    have h1 : n * (k / n - 1) + n = n * (k / n) := by
      calc n * (k / n - 1) + n = n * (k / n - 1 + 1) := by ring
        _ = n * (k / n) := by congr 1; omega
    have hdiv : (k - n) / n = k / n - 1 := by
      have : k - n = n * (k / n - 1) + k % n := by omega
      rw [this, Nat.mul_add_div hn, Nat.div_eq_of_lt hr, Nat.add_zero]
    have hmod : (k - n) % n = k % n := by
      have : k - n = n * (k / n - 1) + k % n := by omega
      rw [this, Nat.mul_add_mod, Nat.mod_eq_of_lt hr]
    refine ⟨by omega, by omega, ?_⟩
    rw [hdiv, hmod]
    simp only [Nat.dist]
    omega
  · -- DOWN
    have h1 : n * (k / n + 1) = n * (k / n) + n := by ring
    have h2 : n * (k / n + 1) ≤ n * (n - 1) := by
      exact Nat.mul_le_mul_left n (by omega)
    have h3 : n * (n - 1) + n = n * n := by
      calc n * (n - 1) + n = n * (n - 1 + 1) := by ring
        _ = n * n := by congr 1; omega
    have hdiv : (k + n) / n = k / n + 1 := by
      have : k + n = n * (k / n + 1) + k % n := by omega
      rw [this, Nat.mul_add_div hn, Nat.div_eq_of_lt hr, Nat.add_zero]
    have hmod : (k + n) % n = k % n := by
      have : k + n = n * (k / n + 1) + k % n := by omega
      rw [this, Nat.mul_add_mod, Nat.mod_eq_of_lt hr]
    refine ⟨by omega, by omega, ?_⟩
    rw [hdiv, hmod]
    simp only [Nat.dist]
    omega
  · -- LEFT
    have hmle : k % n ≤ k := Nat.mod_le k n
    have key : k - 1 = n * (k / n) + (k % n - 1) := by
      conv_lhs => rw [← hqr]
      rw [Nat.add_sub_assoc hc]
    have hdiv : (k - 1) / n = k / n := by
      rw [key, Nat.mul_add_div hn,
        Nat.div_eq_of_lt (show k % n - 1 < n by omega), Nat.add_zero]
    have hmod : (k - 1) % n = k % n - 1 := by
      rw [key, Nat.mul_add_mod, Nat.mod_eq_of_lt (show k % n - 1 < n by omega)]
    refine ⟨by omega, by omega, ?_⟩
    rw [hdiv, hmod]
    simp only [Nat.dist]
    omega
  · -- RIGHT
    have h2 : n * (k / n + 1) ≤ n * n := Nat.mul_le_mul_left n (by omega)
    have h1 : n * (k / n + 1) = n * (k / n) + n := by ring
    have key : k + 1 = n * (k / n) + (k % n + 1) := by
      conv_lhs => rw [← hqr]
      rw [Nat.add_assoc]
    have hdiv : (k + 1) / n = k / n := by
      rw [key, Nat.mul_add_div hn,
        Nat.div_eq_of_lt (show k % n + 1 < n by omega), Nat.add_zero]
    have hmod : (k + 1) % n = k % n + 1 := by
      rw [key, Nat.mul_add_mod, Nat.mod_eq_of_lt (show k % n + 1 < n by omega)]
    refine ⟨?_, by omega, ?_⟩
    · have : k + 1 ≤ n * (k / n) + n := by omega
      omega
    · rw [hdiv, hmod]
      simp only [Nat.dist]
      omega

theorem PState.make_move_some {s t : PState} {d : Direction}
    (h : s.make_move d = some t) :
    ∃ p, s.newPos d = some p ∧
      t.state = swapAt s.state s.blank_pos p ∧ t.blank_pos = p ∧
      t.size = s.size ∧ t.path = s.path ++ [d] := by
  rw [PState.make_move_eq] at h
  cases hp : s.newPos d with
  | none => rw [hp] at h; cases h
  | some p =>
    rw [hp] at h
    simp only [Option.map] at h
    cases h
    exact ⟨p, rfl, rfl, rfl, rfl, rfl⟩

/-- In a duplicate-free list, any index holding `0` is `indexOf 0`. -/
theorem nodup_indexOf_eq {l : List Nat} (hl : l.Nodup) {i : Nat}
    (hi : i < l.length) (h0 : l[i] = 0) : l.indexOf 0 = i := by
  have hmem : (0 : Nat) ∈ l := h0 ▸ List.getElem_mem hi
  have hlt : l.indexOf 0 < l.length := List.indexOf_lt_length.mpr hmem
  have hval : l[l.indexOf 0] = 0 := List.getElem_indexOf hlt
  exact (hl.getElem_inj_iff).mp (hval.trans h0.symm)

/-- A search state is well formed for size `n`: its size field is `n`, its
array is a permutation of `0..n²-1`, and its blank index caches the position
of the value `0`. -/
def ValidState (n : Nat) (s : PState) : Prop :=
  s.size = n ∧ s.state.Perm (List.range (n * n)) ∧
    s.state.indexOf 0 = s.blank_pos

theorem ValidState.length {n : Nat} {s : PState} (hv : ValidState n s) :
    s.state.length = n * n := by
  simpa using hv.2.1.length_eq

theorem ValidState.nodup {n : Nat} {s : PState} (hv : ValidState n s) :
    s.state.Nodup :=
  (hv.2.1.nodup_iff).mpr (List.nodup_range _)

theorem ValidState.blank_lt {n : Nat} {s : PState} (hn : 0 < n)
    (hv : ValidState n s) : s.blank_pos < s.state.length := by
  have hmem : (0 : Nat) ∈ s.state :=
    hv.2.1.mem_iff.mpr (List.mem_range.mpr (by positivity))
  exact hv.2.2 ▸ List.indexOf_lt_length.mpr hmem

theorem ValidState.blank_val {n : Nat} {s : PState} (hn : 0 < n)
    (hv : ValidState n s) : s.state.getD s.blank_pos 0 = 0 := by
  have hlt := hv.blank_lt hn
  rw [List.getD_eq_getElem _ _ hlt]
  have := List.getElem_indexOf (l := s.state) (a := 0) (hv.2.2 ▸ hlt)
  simpa [hv.2.2] using this

/-- If `n = 0`, a valid state admits no successful move at all. -/
theorem ValidState.newPos_none {s : PState} (hv : ValidState 0 s)
    (d : Direction) : s.newPos d = Option.none := by
  have hlen : s.state.length = 0 := hv.length
  have hstate : s.state = [] := List.length_eq_zero.mp hlen
  have hblank : s.blank_pos = 0 := by
    have := hv.2.2
    rw [hstate] at this
    simpa [List.indexOf] using this.symm
  have hsz : s.size = 0 := hv.1
  cases d <;> simp [PState.newPos, hblank, hsz]

/-- Core preservation: a successful `State.make_move` keeps the state valid
(array still a permutation, blank cache still correct), and the new blank
target is in range, distinct from the old blank, and grid-adjacent to it. -/
theorem make_move_valid {n : Nat} {s t : PState} {d : Direction}
    (hv : ValidState n s) (h : s.make_move d = Option.some t) :
    ValidState n t := by
  obtain ⟨p, hp, hstate, hblank, hsize, hpath⟩ := PState.make_move_some h
  rcases Nat.eq_zero_or_pos n with hn | hn
  · subst hn
    rw [hv.newPos_none d] at hp
    cases hp
  · have hlen : s.state.length = n * n := hv.length
    have hbl : s.blank_pos < s.state.length := hv.blank_lt hn
    have hraw : rawNewPos s.size s.blank_pos d = some p :=
      (s.newPos_eq_raw d) ▸ hp
    have hspec := rawNewPos_spec hraw (by rw [hv.1]; omega)
    rw [hv.1] at hspec
    obtain ⟨hplt, hpne, _⟩ := hspec
    have hplt' : p < s.state.length := by omega
    refine ⟨hsize.trans hv.1, ?_, ?_⟩
    · rw [hstate]
      exact (swapAt_perm s.state (fun e => hpne e.symm) hbl hplt').trans hv.2.1
    · rw [hstate, hblank]
      have hlt : p < (swapAt s.state s.blank_pos p).length := by
        rw [swapAt_length]; exact hplt'
      have hval : (swapAt s.state s.blank_pos p)[p] = 0 := by
        rw [swapAt_getElem_snd _ _ _ hlt]
        exact hv.blank_val hn
      have hnd : (swapAt s.state s.blank_pos p).Nodup :=
        (((swapAt_perm s.state (fun e => hpne e.symm) hbl hplt').trans
          hv.2.1).nodup_iff).mpr (List.nodup_range _)
      exact nodup_indexOf_eq hnd hlt hval

theorem Board.make_move_raw (b : Board) (d : Direction) :
    Board.make_move b d =
      match rawNewPos b.size b.blank_pos d with
      | Option.none => (false, b)
      | Option.some new_pos =>
        (true, { b with state := swapAt b.state b.blank_pos new_pos,
                        blank_pos := new_pos }) := by
  cases d <;> simp only [Board.make_move, rawNewPos, swapAt]

/-- The search state holding the same configuration data as a board. -/
def pstateOfBoard (b : Board) : PState :=
  { state := b.state, blank_pos := b.blank_pos, size := b.size, path := [] }

theorem Board.make_move_correspond (b : Board) (d : Direction) :
    Board.make_move b d =
      match (pstateOfBoard b).make_move d with
      | Option.none => (false, b)
      | Option.some t =>
        (true, { size := b.size, state := t.state, blank_pos := t.blank_pos }) := by
  rw [Board.make_move_raw, PState.make_move_eq, PState.newPos_eq_raw]
  cases hp : rawNewPos (pstateOfBoard b).size (pstateOfBoard b).blank_pos d with
  | none =>
    have hb : rawNewPos b.size b.blank_pos d = Option.none := hp
    rw [hb]
    rfl
  | some p =>
    have hb : rawNewPos b.size b.blank_pos d = Option.some p := hp
    rw [hb]
    rfl

/-- **C10**: For every state whose tile array is a permutation of `0..N²-1`
and whose blank index equals the position of value 0 in the array, every
successful `make_move` (both the `State` variant returning a new state and
the in-place `Board` variant) yields a state that again satisfies both
properties: the array is still a permutation of `0..N²-1` and the blank
index equals the position of value 0. -/
theorem c10_invariants_preserved :
    (∀ (s t : PState) (d : Direction),
      s.state.Perm (List.range (s.size * s.size)) →
      s.state.indexOf 0 = s.blank_pos →
      s.make_move d = Option.some t →
      t.state.Perm (List.range (t.size * t.size)) ∧
        t.state.indexOf 0 = t.blank_pos) ∧
    (∀ (b : Board) (d : Direction),
      b.state.Perm (List.range (b.size * b.size)) →
      b.state.indexOf 0 = b.blank_pos →
      (Board.make_move b d).1 = true →
      (Board.make_move b d).2.state.Perm
        (List.range ((Board.make_move b d).2.size *
          (Board.make_move b d).2.size)) ∧
        (Board.make_move b d).2.state.indexOf 0 =
          (Board.make_move b d).2.blank_pos) := by
  have main : ∀ (s t : PState) (d : Direction),
      s.state.Perm (List.range (s.size * s.size)) →
      s.state.indexOf 0 = s.blank_pos →
      s.make_move d = Option.some t →
      t.state.Perm (List.range (t.size * t.size)) ∧
        t.state.indexOf 0 = t.blank_pos := by
    intro s t d hperm hidx h
    have hv : ValidState s.size s := ⟨rfl, hperm, hidx⟩
    have hv' : ValidState s.size t := make_move_valid hv h
    obtain ⟨p, _, _, _, hsize, _⟩ := PState.make_move_some h
    constructor
    · rw [hsize]
      exact hv'.2.1
    · exact hv'.2.2
  refine ⟨main, ?_⟩
  intro b d hperm hidx h
  have hcorr := Board.make_move_correspond b d
  cases hm : (pstateOfBoard b).make_move d with
  | none =>
    rw [hm] at hcorr
    rw [hcorr] at h
    cases h
  | some t =>
    rw [hm] at hcorr
    have := main (pstateOfBoard b) t d hperm hidx hm
    obtain ⟨p, _, _, _, hsize, _⟩ := PState.make_move_some hm
    rw [hcorr]
    simp only
    constructor
    · have : t.state.Perm (List.range (b.size * b.size)) := by
        have h2 := this.1
        rw [hsize] at h2
        exact h2
      exact this
    · exact this.2

/-- Witness for C10 at the "simple puzzle" board with a DOWN move, for both
the `State` and the `Board` variant. -/
theorem c10_invariants_preserved_witness :
    (([1, 2, 3, 4, 5, 6, 7, 0, 8] : List Nat).Perm (List.range (3 * 3)) ∧
      ([1, 2, 3, 4, 5, 6, 7, 0, 8] : List Nat).indexOf 0 = 7) ∧
    ((Board.make_move (Board.ofGrid [[1, 2, 3], [4, 0, 6], [7, 5, 8]])
        Direction.DOWN).2.state.Perm
      (List.range
        ((Board.make_move (Board.ofGrid [[1, 2, 3], [4, 0, 6], [7, 5, 8]])
          Direction.DOWN).2.size *
         (Board.make_move (Board.ofGrid [[1, 2, 3], [4, 0, 6], [7, 5, 8]])
          Direction.DOWN).2.size)) ∧
      (Board.make_move (Board.ofGrid [[1, 2, 3], [4, 0, 6], [7, 5, 8]])
        Direction.DOWN).2.state.indexOf 0 =
        (Board.make_move (Board.ofGrid [[1, 2, 3], [4, 0, 6], [7, 5, 8]])
          Direction.DOWN).2.blank_pos) :=
  ⟨c10_invariants_preserved.1
      (PState.from_board (Board.ofGrid [[1, 2, 3], [4, 0, 6], [7, 5, 8]]))
      { state := [1, 2, 3, 4, 5, 6, 7, 0, 8], blank_pos := 7, size := 3,
        path := [Direction.DOWN] }
      Direction.DOWN (by decide) (by decide) (by decide),
    c10_invariants_preserved.2
      (Board.ofGrid [[1, 2, 3], [4, 0, 6], [7, 5, 8]])
      Direction.DOWN (by decide) (by decide) (by decide)⟩

/-! ## Concrete boards used by the scenario claims -/

/-- Scenario A board `[[1,2,3],[4,0,6],[7,5,8]]`. -/
def boardScenarioA : Board := Board.ofGrid [[1, 2, 3], [4, 0, 6], [7, 5, 8]]

/-- Scenario B board `[[1,2,3],[4,5,6],[7,8,0]]` (the 3×3 goal). -/
def boardScenarioB : Board := Board.ofGrid [[1, 2, 3], [4, 5, 6], [7, 8, 0]]

/-- Scenario C board `[[1,2,3],[4,5,6],[8,7,0]]` (odd inversion count). -/
def boardScenarioC : Board := Board.ofGrid [[1, 2, 3], [4, 5, 6], [8, 7, 0]]

/-- The 2×2 goal board `[[1,2],[3,0]]`. -/
def board2x2Goal : Board := Board.ofGrid [[1, 2], [3, 0]]

/-- The unsolvable 2×2 board `[[2,1],[3,0]]`. -/
def board2x2Swapped : Board := Board.ofGrid [[2, 1], [3, 0]]

/-- A solvable 3×3 board (top row cyclically shifted) on which the A*
pruning loses every solution: `[[2,3,1],[4,5,6],[7,8,0]]`. -/
def boardAstarMiss : Board := Board.ofGrid [[2, 3, 1], [4, 5, 6], [7, 8, 0]]

/-- A 16-move solution of `boardAstarMiss`, checked by replay. -/
def astarMissSolution : List Direction :=
  [Direction.UP, Direction.UP, Direction.LEFT, Direction.LEFT, Direction.DOWN,
   Direction.RIGHT, Direction.RIGHT, Direction.UP, Direction.LEFT,
   Direction.DOWN, Direction.LEFT, Direction.UP, Direction.RIGHT,
   Direction.RIGHT, Direction.DOWN, Direction.DOWN]

/-- **C6**: For every state and every direction in {UP, DOWN, LEFT, RIGHT},
`make_move` returns a new state (succeeds) if and only if the direction is in
`get_possible_moves` of that state (UP iff blank row > 0, DOWN iff blank row
< N-1, LEFT iff blank column > 0, RIGHT iff blank column < N-1); for every
other direction it returns the explicit no-result value (`None`) rather than
raising a fault. -/
theorem c6_make_move_iff_possible (s : PState) (hn : 0 < s.size) :
    (∀ d : Direction,
      (s.make_move d).isSome = true ↔ d ∈ s.get_possible_moves) ∧
    (Direction.UP ∈ s.get_possible_moves ↔ 0 < s.blank_pos / s.size) ∧
    (Direction.DOWN ∈ s.get_possible_moves ↔
      s.blank_pos / s.size < s.size - 1) ∧
    (Direction.LEFT ∈ s.get_possible_moves ↔ 0 < s.blank_pos % s.size) ∧
    (Direction.RIGHT ∈ s.get_possible_moves ↔
      s.blank_pos % s.size < s.size - 1) ∧
    (∀ d : Direction, d ∉ s.get_possible_moves →
      s.make_move d = Option.none) := by
  refine ⟨PState.make_move_isSome_iff s,
    PState.mem_get_possible_moves s Direction.UP,
    PState.mem_get_possible_moves s Direction.DOWN,
    PState.mem_get_possible_moves s Direction.LEFT,
    PState.mem_get_possible_moves s Direction.RIGHT, ?_⟩
  intro d hd
  have hns := (PState.make_move_isSome_iff s d).not.mpr hd
  cases hmm : s.make_move d with
  | none => rfl
  | some t => rw [hmm] at hns; simp at hns

/-- Witness for C6 at the scenario A state (blank in the centre). -/
theorem c6_make_move_iff_possible_witness :
    (∀ d : Direction,
      ((PState.from_board boardScenarioA).make_move d).isSome = true ↔
        d ∈ (PState.from_board boardScenarioA).get_possible_moves) ∧
    (Direction.UP ∈ (PState.from_board boardScenarioA).get_possible_moves ↔
      0 < (PState.from_board boardScenarioA).blank_pos /
        (PState.from_board boardScenarioA).size) ∧
    (Direction.DOWN ∈ (PState.from_board boardScenarioA).get_possible_moves ↔
      (PState.from_board boardScenarioA).blank_pos /
        (PState.from_board boardScenarioA).size <
        (PState.from_board boardScenarioA).size - 1) ∧
    (Direction.LEFT ∈ (PState.from_board boardScenarioA).get_possible_moves ↔
      0 < (PState.from_board boardScenarioA).blank_pos %
        (PState.from_board boardScenarioA).size) ∧
    (Direction.RIGHT ∈ (PState.from_board boardScenarioA).get_possible_moves ↔
      (PState.from_board boardScenarioA).blank_pos %
        (PState.from_board boardScenarioA).size <
        (PState.from_board boardScenarioA).size - 1) ∧
    (∀ d : Direction,
      d ∉ (PState.from_board boardScenarioA).get_possible_moves →
      (PState.from_board boardScenarioA).make_move d = Option.none) :=
  c6_make_move_iff_possible (PState.from_board boardScenarioA) (by decide)

/-- **C3** (code bug): `is_solvable` rejects the already-solved 2×2 board:
on `[[1,2],[3,0]]` it returns `false`, although the goal configuration is
reachable from it by the empty move sequence (the configuration is the goal
itself).  The even-size parity in the source is inverted. -/
theorem c3_is_solvable_wrong_on_goal_2x2 :
    Solver.is_solvable board2x2Goal = false ∧
      (PState.from_board board2x2Goal).is_goal = true ∧
      (PState.from_board board2x2Goal).replay [] =
        Option.some (PState.from_board board2x2Goal) := by decide

/-- **C4** (code bug): when BFS exhausts its frontier under the depth
ceiling it returns Python `None` instead of a `SolutionInfo` with status
NO_SOLUTION, and when the goal is found it passes the move path positionally
into the `status` field while the `moves` field receives the
`optimal_length` argument. -/
theorem c4_bfs_none_and_misplaced_fields :
    BFSSolver.solve board2x2Swapped Option.none = Option.none ∧
      BFSSolver.solve board2x2Goal (Option.some 5) =
        Option.some
          { status := PyField.dirs [], moves := PyField.nat 5,
            optimal_length := PyField.none } := by decide

/-- **C5**: For every initial board, the DFS solver's `solve` returns
ALREADY_SOLVED exactly when the root configuration is the goal (without
consulting the solvability check), and otherwise returns UNSOLVABLE exactly
when `is_solvable` is false, in both cases before any depth-limited
traversal. -/
theorem c5_dfs_eager_checks (b : Board) (optimal_length : Option Nat) :
    ((DFSSolver.solve b optimal_length).status =
        PyField.status SolutionStatus.ALREADY_SOLVED ↔
      (PState.from_board b).is_goal = true) ∧
    ((PState.from_board b).is_goal = false →
      ((DFSSolver.solve b optimal_length).status =
          PyField.status SolutionStatus.UNSOLVABLE ↔
        Solver.is_solvable b = false)) := by
  cases hgoal : (PState.from_board b).is_goal with
  | true =>
    constructor
    · simp [DFSSolver.solve, hgoal]
    · intro hcontra
      cases hcontra
  | false =>
    cases hsolv : Solver.is_solvable b with
    | false =>
      constructor
      · simp [DFSSolver.solve, hgoal, hsolv]
      · intro _
        simp [DFSSolver.solve, hgoal, hsolv]
    | true =>
      cases hd : DFSSolver.deepen (PState.from_board b)
          (List.range' 1 Config.MAX_DEPTH_DFS) with
      | some r =>
        constructor <;> simp [DFSSolver.solve, hgoal, hsolv, hd]
      | none =>
        constructor <;> simp [DFSSolver.solve, hgoal, hsolv, hd]

/-- Witness for C5 at the scenario C board (odd inversions, reported
UNSOLVABLE). -/
theorem c5_dfs_eager_checks_witness :
    ((DFSSolver.solve boardScenarioC Option.none).status =
        PyField.status SolutionStatus.ALREADY_SOLVED ↔
      (PState.from_board boardScenarioC).is_goal = true) ∧
    ((PState.from_board boardScenarioC).is_goal = false →
      ((DFSSolver.solve boardScenarioC Option.none).status =
          PyField.status SolutionStatus.UNSOLVABLE ↔
        Solver.is_solvable boardScenarioC = false)) :=
  c5_dfs_eager_checks boardScenarioC Option.none

/-- **C8** (counterexample): on the already-solved board `[[1,2,3],[4,5,6],
[7,8,0]]` the BFS solver does *not* return a result with status
ALREADY_SOLVED — its status field holds the empty direction list instead. -/
theorem c8_counterexample_bfs_not_already_solved :
    (BFSSolver.solve boardScenarioB Option.none).map SolutionInfo.status ≠
      Option.some (PyField.status SolutionStatus.ALREADY_SOLVED) := by decide

/-- **C8** (amended): on the already-solved board, DFS returns status
ALREADY_SOLVED (with no move list), while BFS and A* each return a
`SolutionInfo` whose `status` slot carries the empty move path and whose
other fields are `None`. -/
theorem c8_amended_goal_board_results :
    DFSSolver.solve boardScenarioB Option.none =
      { status := PyField.status SolutionStatus.ALREADY_SOLVED,
        moves := PyField.none, optimal_length := PyField.none } ∧
    BFSSolver.solve boardScenarioB Option.none =
      Option.some
        { status := PyField.dirs [], moves := PyField.none,
          optimal_length := PyField.none } ∧
    AStarSolver.solve boardScenarioB Option.none =
      Option.some
        { status := PyField.dirs [], moves := PyField.none,
          optimal_length := PyField.none } := by decide

/-- **C9** (counterexample): on `[[1,2,3],[4,0,6],[7,5,8]]` the DFS solver
returns a SOLVED result whose move list has length 2, not 1 (that board is
two slides away from the goal, not one). -/
theorem c9_counterexample_two_moves :
    DFSSolver.solve boardScenarioA Option.none =
      { status := PyField.status SolutionStatus.SOLVED,
        moves := PyField.dirs [Direction.DOWN, Direction.RIGHT],
        optimal_length := PyField.none } ∧
    ([Direction.DOWN, Direction.RIGHT] : List Direction).length ≠ 1 := by
  decide

/-- **C9** (amended): on the initial board `[[1,2,3],[4,0,6],[7,5,8]]`,
every strategy's solve returns a solution consisting of exactly the two
moves DOWN, RIGHT (DFS in its `moves` field, BFS and A* in their `status`
slot). -/
theorem c9_amended_all_two_moves :
    DFSSolver.solve boardScenarioA Option.none =
      { status := PyField.status SolutionStatus.SOLVED,
        moves := PyField.dirs [Direction.DOWN, Direction.RIGHT],
        optimal_length := PyField.none } ∧
    BFSSolver.solve boardScenarioA Option.none =
      Option.some
        { status := PyField.dirs [Direction.DOWN, Direction.RIGHT],
          moves := PyField.none, optimal_length := PyField.none } ∧
    AStarSolver.solve boardScenarioA Option.none =
      Option.some
        { status := PyField.dirs [Direction.DOWN, Direction.RIGHT],
          moves := PyField.none, optimal_length := PyField.none } := by decide

theorem PState.replay_snoc (root : PState) (ms : List Direction)
    (d : Direction) :
    root.replay (ms ++ [d]) =
      (root.replay ms).bind (fun t => t.make_move d) := by
  induction ms generalizing root with
  | nil =>
    simp only [List.nil_append, PState.replay, Option.bind_some]
    cases hm : root.make_move d <;> simp [PState.replay, hm]
  | cons d' ms ih =>
    simp only [List.cons_append, PState.replay]
    cases root.make_move d' with
    | none => rfl
    | some t => exact ih t

theorem PState.make_move_length {s t : PState} {d : Direction}
    (h : s.make_move d = Option.some t) : t.state.length = s.state.length := by
  obtain ⟨p, _, hstate, _⟩ := PState.make_move_some h
  rw [hstate, swapAt_length]

theorem PState.replay_length {s t : PState} {ms : List Direction}
    (h : s.replay ms = Option.some t) : t.state.length = s.state.length := by
  induction ms generalizing s with
  | nil =>
    simp only [PState.replay, Option.some.injEq] at h
    rw [← h]
  | cons d ms ih =>
    simp only [PState.replay] at h
    cases hm : s.make_move d with
    | none => rw [hm] at h; cases h
    | some u =>
      rw [hm] at h
      exact (ih h).trans (PState.make_move_length hm)

theorem goalConfig_length (m : Nat) : (goalConfig m).length = m := by
  simp [goalConfig]

theorem goalConfig_getD {m i : Nat} (hi : i < m) :
    (goalConfig m).getD i 0 = if i = m - 1 then 0 else i + 1 := by
  have hlen : i < (goalConfig m).length := by rw [goalConfig_length]; exact hi
  rw [List.getD_eq_getElem _ _ hlen]
  simp [goalConfig]

theorem PState.is_goal_iff (s : PState) :
    s.is_goal = true ↔ s.state = goalConfig s.state.length := by
  unfold PState.is_goal
  rw [List.all_eq_true]
  constructor
  · intro h
    refine List.ext_getElem (by rw [goalConfig_length]) ?_
    intro i hi hi2
    have hmem := h i (List.mem_range.mpr hi)
    rw [List.getD_eq_getElem _ _ hi] at hmem
    have hgd : (goalConfig s.state.length)[i] =
        if i = s.state.length - 1 then 0 else i + 1 := by
      have := goalConfig_getD (m := s.state.length) (i := i) hi
      rwa [List.getD_eq_getElem _ _ hi2] at this
    rw [hgd]
    by_cases hc : i = s.state.length - 1
    · rw [if_pos hc] at hmem ⊢
      exact beq_iff_eq.mp hmem
    · rw [if_neg hc] at hmem ⊢
      exact beq_iff_eq.mp hmem
  · intro h i hi
    rw [List.mem_range] at hi
    have hgd : s.state.getD i 0 = if i = s.state.length - 1 then 0 else i + 1 := by
      rw [congrArg (fun l => List.getD l i 0) h]
      exact goalConfig_getD hi
    by_cases hc : i = s.state.length - 1
    · rw [if_pos hc] at hgd
      rw [if_pos hc, hgd]
      exact beq_self_eq_true _
    · rw [if_neg hc] at hgd
      rw [if_neg hc, hgd]
      exact beq_self_eq_true _

theorem from_board_length (b : Board) :
    (PState.from_board b).state.length = b.size * b.size := by
  simp only [PState.from_board, Board.get_state, List.length_flatten,
    List.map_map, Function.comp_def, List.length_map, List.length_range]
  rw [List.map_const', List.sum_replicate, List.length_range, smul_eq_mul]

/-- Soundness of the depth-limited DFS: any returned state is reachable from
the root by replaying its recorded path, and satisfies the goal test. -/
theorem dfs_sound_aux (fuel : Nat) :
    (∀ (s : PState) (visited current_path : List (List Nat))
      (limit : Nat) (root r : PState) (v' : List (List Nat)),
      root.replay s.path = Option.some s →
      DFSSolver.dfs_with_depth_limit fuel s visited current_path limit =
        (Option.some r, v') →
      root.replay r.path = Option.some r ∧ r.is_goal = true) ∧
    (∀ (s : PState) (last_move : Option Direction) (ds : List Direction)
      (visited current_path : List (List Nat)) (limit : Nat)
      (root r : PState) (v' : List (List Nat)),
      root.replay s.path = Option.some s →
      DFSSolver.dfs_try fuel s last_move ds visited current_path limit =
        (Option.some r, v') →
      root.replay r.path = Option.some r ∧ r.is_goal = true) := by
  induction fuel with
  | zero =>
    constructor
    · intro s visited current_path limit root r v' _ h
      simp [DFSSolver.dfs_with_depth_limit] at h
    · intro s last_move ds visited current_path limit root r v' _ h
      simp [DFSSolver.dfs_try] at h
  | succ n ih =>
    constructor
    · intro s visited current_path limit root r v' hrep h
      simp only [DFSSolver.dfs_with_depth_limit] at h
      split_ifs at h with hg hd
      · simp only [Prod.mk.injEq, Option.some.injEq] at h
        rw [← h.1]
        exact ⟨hrep, hg⟩
      · simp at h
      · exact ih.2 s _ _ visited current_path limit root r v' hrep h
    · intro s last_move ds visited current_path limit root r v' hrep h
      cases ds with
      | nil => simp [DFSSolver.dfs_try] at h
      | cons d rest =>
        simp only [DFSSolver.dfs_try] at h
        split_ifs at h with hrev
        · exact ih.2 s last_move rest _ _ limit root r v' hrep h
        · cases hmm : s.make_move d with
          | none =>
            simp only [hmm] at h
            exact ih.2 s last_move rest _ _ limit root r v' hrep h
          | some next =>
            simp only [hmm] at h
            split_ifs at h with hmem
            · exact ih.2 s last_move rest _ _ limit root r v' hrep h
            · have hrepnext : root.replay next.path = Option.some next := by
                obtain ⟨p, _, _, _, _, hpath⟩ := PState.make_move_some hmm
                rw [hpath, PState.replay_snoc, hrep, Option.some_bind]
                exact hmm
              cases hrec : DFSSolver.dfs_with_depth_limit n next
                  (next.state :: visited) (next.state :: current_path)
                  limit with
              | mk o v =>
                simp only [hrec] at h
                cases o with
                | some r' =>
                  simp only [Prod.mk.injEq, Option.some.injEq] at h
                  rw [← h.1]
                  have := ih.1 next (next.state :: visited)
                    (next.state :: current_path) limit root r' v hrepnext hrec
                  exact this
                | none =>
                  exact ih.2 s last_move rest v current_path limit root r v'
                    hrep h

/-- Soundness of the iterative-deepening loop of `DFSSolver.solve`. -/
theorem dfs_deepen_sound (limits : List Nat) (root r : PState)
    (hroot : root.path = []) (h : DFSSolver.deepen root limits = Option.some r) :
    root.replay r.path = Option.some r ∧ r.is_goal = true := by
  induction limits with
  | nil => simp [DFSSolver.deepen] at h
  | cons limit rest ih =>
    simp only [DFSSolver.deepen] at h
    cases hd : DFSSolver.dfs_with_depth_limit DFSSolver.fuel root []
        [root.state] limit with
    | mk o v =>
      simp only [hd] at h
      cases o with
      | some r' =>
        simp only [Option.some.injEq] at h
        rw [← h]
        exact (dfs_sound_aux DFSSolver.fuel).1 root [] [root.state] limit
          root r' v (by rw [hroot]; rfl) hd
      | none => exact ih h

/-- **C2**: For every initial board on which a solver's `solve` returns a
SOLVED result carrying a move list, applying that move list in order via
`make_move` (`apply_move`) starting from the original initial configuration
succeeds at every step and ends exactly in the goal configuration
`[1, 2, ..., N²-1, 0]`.  (Only the DFS solver produces SOLVED results.) -/
theorem c2_dfs_solved_roundtrip (b : Board) (optimal_length : Option Nat)
    (moves : List Direction)
    (hst : (DFSSolver.solve b optimal_length).status =
      PyField.status SolutionStatus.SOLVED)
    (hmv : (DFSSolver.solve b optimal_length).moves = PyField.dirs moves) :
    ∃ t, (PState.from_board b).replay moves = Option.some t ∧
      t.state = goalConfig (b.size * b.size) := by
  simp only [DFSSolver.solve] at hmv hst
  split_ifs at hmv hst with h1 h2
  · cases hd : DFSSolver.deepen (PState.from_board b)
        (List.range' 1 Config.MAX_DEPTH_DFS) with
    | none =>
      simp only [hd] at hst
      simp at hst
    | some r =>
      simp only [hd] at hmv
      simp only [PyField.dirs.injEq] at hmv
      obtain ⟨hrep, hgoal⟩ := dfs_deepen_sound _ _ _ rfl hd
      refine ⟨r, by rw [← hmv]; exact hrep, ?_⟩
      have hcfg := (PState.is_goal_iff r).mp hgoal
      have hlen : r.state.length = b.size * b.size := by
        rw [PState.replay_length hrep, from_board_length]
      rw [hcfg, hlen]

/-- Witness for C2 at the scenario A board, whose DFS solution is
`[DOWN, RIGHT]`. -/
theorem c2_dfs_solved_roundtrip_witness :
    ∃ t, (PState.from_board boardScenarioA).replay
        [Direction.DOWN, Direction.RIGHT] = Option.some t ∧
      t.state = goalConfig (boardScenarioA.size * boardScenarioA.size) :=
  c2_dfs_solved_roundtrip boardScenarioA Option.none
    [Direction.DOWN, Direction.RIGHT] (by decide) (by decide)

/-- The per-tile contribution inside `manhattan_distance`. -/
def tileTerm (n pos v : Nat) : Nat :=
  if v ≠ 0 then
    Nat.dist (pos / n) ((v - 1) / n) + Nat.dist (pos % n) ((v - 1) % n)
  else 0

theorem manhattan_eq_sum (s : PState) :
    s.manhattan_distance =
      ∑ pos ∈ Finset.range s.state.length,
        tileTerm s.size pos (s.state.getD pos 0) := rfl

theorem tileTerm_zero (n pos : Nat) : tileTerm n pos 0 = 0 := rfl

theorem swapAt_getD (l : List Nat) {a p : Nat} (i : Nat) (hap : a ≠ p)
    (ha : a < l.length) (hp : p < l.length) :
    (swapAt l a p).getD i 0 =
      if i = p then l.getD a 0
      else if i = a then l.getD p 0
      else l.getD i 0 := by
  by_cases hi : i < l.length
  · have hi' : i < (swapAt l a p).length := by rw [swapAt_length]; exact hi
    rw [List.getD_eq_getElem _ _ hi']
    by_cases hip : i = p
    · subst hip
      rw [if_pos rfl]
      exact swapAt_getElem_snd l a i hi'
    · rw [if_neg hip]
      have hi2 : i < (l.set a (l.getD p 0)).length := by simpa using hi
      have h1 : (swapAt l a p)[i] = (l.set a (l.getD p 0))[i] :=
        List.getElem_set_ne (fun e => hip e.symm) _
      rw [h1]
      by_cases hia : i = a
      · subst hia
        rw [if_pos rfl, List.getElem_set_self, List.getD_eq_getElem _ _ hp]
      · rw [if_neg hia,
          List.getElem_set_ne (fun e => hia e.symm) _,
          List.getD_eq_getElem _ _ hi]
  · have hlen := swapAt_length l a p
    rw [if_neg (show ¬ i = p by omega), if_neg (show ¬ i = a by omega)]
    rw [List.getD_eq_getElem?_getD, List.getD_eq_getElem?_getD,
      List.getElem?_eq_none (show l.length ≤ i by omega),
      List.getElem?_eq_none (show (swapAt l a p).length ≤ i by omega)]

theorem sum_range_split_two {m a p : Nat} (F : Nat → Nat) (hap : a ≠ p)
    (ha : a < m) (hp : p < m) :
    ∑ i ∈ Finset.range m, F i =
      F a + F p + ∑ i ∈ ((Finset.range m).erase a).erase p, F i := by
  have hpa : p ∈ (Finset.range m).erase a :=
    Finset.mem_erase.mpr ⟨fun e => hap e.symm, Finset.mem_range.mpr hp⟩
  rw [← Finset.add_sum_erase _ F (Finset.mem_range.mpr ha),
    ← Finset.add_sum_erase _ F hpa, ← Nat.add_assoc]

theorem manhattan_swap_eq {n : Nat} {s t : PState} {p : Nat}
    (hsn : s.size = n) (htn : t.size = n)
    (hts : t.state = swapAt s.state s.blank_pos p)
    (hap : s.blank_pos ≠ p)
    (ha : s.blank_pos < s.state.length) (hp : p < s.state.length)
    (h0 : s.state.getD s.blank_pos 0 = 0) :
    s.manhattan_distance + tileTerm n s.blank_pos (s.state.getD p 0) =
      t.manhattan_distance + tileTerm n p (s.state.getD p 0) := by
  have hlen : t.state.length = s.state.length := by rw [hts, swapAt_length]
  rw [manhattan_eq_sum, manhattan_eq_sum, hlen, hsn, htn]
  rw [sum_range_split_two (fun i => tileTerm n i (s.state.getD i 0)) hap ha hp,
    sum_range_split_two (fun i => tileTerm n i (t.state.getD i 0)) hap ha hp]
  have htail :
      ∑ i ∈ ((Finset.range s.state.length).erase s.blank_pos).erase p,
        tileTerm n i (t.state.getD i 0) =
      ∑ i ∈ ((Finset.range s.state.length).erase s.blank_pos).erase p,
        tileTerm n i (s.state.getD i 0) := by
    refine Finset.sum_congr rfl (fun i hi => ?_)
    have h1 := Finset.mem_erase.mp hi
    have h2 := Finset.mem_erase.mp h1.2
    rw [hts, swapAt_getD _ i hap ha hp, if_neg h1.1, if_neg h2.1]
  have hFa : tileTerm n s.blank_pos (t.state.getD s.blank_pos 0) =
      tileTerm n s.blank_pos (s.state.getD p 0) := by
    rw [hts, swapAt_getD _ s.blank_pos hap ha hp, if_neg hap, if_pos rfl]
  have hFp : tileTerm n p (t.state.getD p 0) = 0 := by
    rw [hts, swapAt_getD _ p hap ha hp, if_pos rfl, h0, tileTerm_zero]
  have hsa : tileTerm n s.blank_pos (s.state.getD s.blank_pos 0) = 0 := by
    rw [h0, tileTerm_zero]
  rw [htail, hFa, hFp, hsa]
  omega

/-- One legal move lowers the Manhattan heuristic by at most one. -/
theorem manhattan_step_le {n : Nat} (s t : PState) (d : Direction)
    (hsz : s.size = n) (hperm : s.state.Perm (List.range (n * n)))
    (hblank : s.state.indexOf 0 = s.blank_pos)
    (hmove : s.make_move d = Option.some t) :
    s.manhattan_distance ≤ t.manhattan_distance + 1 := by
  have hv : ValidState n s := ⟨hsz, hperm, hblank⟩
  obtain ⟨p, hpnew, hstate, hblank', hsize, _⟩ := PState.make_move_some hmove
  rcases Nat.eq_zero_or_pos n with hn0 | hn
  · subst hn0
    rw [hv.newPos_none d] at hpnew
    cases hpnew
  · have hlen := hv.length
    have hbl := hv.blank_lt hn
    have hraw : rawNewPos s.size s.blank_pos d = some p :=
      (s.newPos_eq_raw d) ▸ hpnew
    have hspec := rawNewPos_spec hraw (by rw [hsz]; omega)
    rw [hsz] at hspec
    obtain ⟨hplt, hpne, hadj⟩ := hspec
    have hp' : p < s.state.length := by omega
    have h0 : s.state.getD s.blank_pos 0 = 0 := hv.blank_val hn
    have hkey := manhattan_swap_eq hsz (hsize.trans hsz) hstate
      (fun e => hpne e.symm) hbl hp' h0
    by_cases hv0 : s.state.getD p 0 = 0
    · rw [hv0, tileTerm_zero, tileTerm_zero] at hkey
      omega
    · have hbound : tileTerm n p (s.state.getD p 0) ≤
          tileTerm n s.blank_pos (s.state.getD p 0) + 1 := by
        unfold tileTerm
        rw [if_pos hv0, if_pos hv0]
        have t1 := Nat.dist.triangle_inequality (p / n) (s.blank_pos / n)
          ((s.state.getD p 0 - 1) / n)
        have t2 := Nat.dist.triangle_inequality (p % n) (s.blank_pos % n)
          ((s.state.getD p 0 - 1) % n)
        omega
      omega

/-- **C7**: For every valid state `s` (a permutation of `0..N²-1`) and every
direction `d` legal in `s`, the Manhattan-distance heuristic is consistent
with unit edge cost: `manhattan_distance s - manhattan_distance (make_move s
d)` is at most 1 (stated subtraction-free as
`manhattan_distance s ≤ manhattan_distance (make_move s d) + 1`). -/
theorem c7_manhattan_consistent {n : Nat} (s t : PState) (d : Direction)
    (hsz : s.size = n) (hperm : s.state.Perm (List.range (n * n)))
    (hblank : s.state.indexOf 0 = s.blank_pos)
    (hmove : s.make_move d = Option.some t) :
    s.manhattan_distance ≤ t.manhattan_distance + 1 :=
  manhattan_step_le s t d hsz hperm hblank hmove

/-- Witness for C7 at the scenario A state with a DOWN move. -/
theorem c7_manhattan_consistent_witness :
    (PState.from_board boardScenarioA).manhattan_distance ≤
      ({ state := [1, 2, 3, 4, 5, 6, 7, 0, 8], blank_pos := 7, size := 3,
         path := [Direction.DOWN] } : PState).manhattan_distance + 1 :=
  c7_manhattan_consistent (n := 3) (PState.from_board boardScenarioA)
    { state := [1, 2, 3, 4, 5, 6, 7, 0, 8], blank_pos := 7, size := 3,
      path := [Direction.DOWN] }
    Direction.DOWN (by decide) (by decide) (by decide) (by decide)

/-! ## Reachability and graph distance -/

/-- The goal test as a function of the bare configuration. -/
def isGoalConfig (c : List Nat) : Bool :=
  (List.range c.length).all (fun i =>
    if i = c.length - 1 then c.getD i 0 == 0 else c.getD i 0 == i + 1)

theorem is_goal_eq_config (s : PState) : s.is_goal = isGoalConfig s.state := rfl

/-- `s` is reachable from `root` by some legal move sequence. -/
def Reached (root s : PState) : Prop :=
  ∃ ms, root.replay ms = Option.some s

/-- The configuration `c` is reachable from `root` in exactly `k` moves. -/
def reachIn (root : PState) (c : List Nat) (k : Nat) : Prop :=
  ∃ ms s, ms.length = k ∧ root.replay ms = Option.some s ∧ s.state = c

theorem PState.replay_append_eq (root : PState) (ms ms' : List Direction) :
    root.replay (ms ++ ms') = (root.replay ms).bind (fun t => t.replay ms') := by
  induction ms generalizing root with
  | nil => simp [PState.replay]
  | cons d rest ih =>
    simp only [List.cons_append, PState.replay]
    cases hm : root.make_move d with
    | none => rfl
    | some t => exact ih t

theorem replay_valid {n : Nat} {root s : PState} {ms : List Direction}
    (hv : ValidState n root) (h : root.replay ms = Option.some s) :
    ValidState n s := by
  induction ms generalizing root with
  | nil =>
    simp only [PState.replay, Option.some.injEq] at h
    rw [← h]
    exact hv
  | cons d rest ih =>
    simp only [PState.replay] at h
    cases hm : root.make_move d with
    | none => rw [hm] at h; cases h
    | some u =>
      rw [hm] at h
      exact ih (make_move_valid hv hm) h

/-- Two reached states holding the same configuration produce the same child
configurations (the blank cache and size are determined by the data). -/
theorem make_move_state_congr {n : Nat} {s s' : PState}
    (hv : ValidState n s) (hv' : ValidState n s') (heq : s.state = s'.state)
    (d : Direction) :
    (s.make_move d).map PState.state = (s'.make_move d).map PState.state := by
  have hb : s.blank_pos = s'.blank_pos := by rw [← hv.2.2, ← hv'.2.2, heq]
  have hsz : s.size = s'.size := hv.1.trans hv'.1.symm
  rw [PState.make_move_eq, PState.make_move_eq, PState.newPos_eq_raw,
    PState.newPos_eq_raw, ← hb, ← hsz, ← heq]
  cases rawNewPos s.size s.blank_pos d <;> simp [heq, hb]

theorem reachIn_zero {root : PState} {c : List Nat} :
    reachIn root c 0 ↔ c = root.state := by
  constructor
  · rintro ⟨ms, s, hlen, hrep, hst⟩
    rw [List.length_eq_zero.mp hlen] at hrep
    simp only [PState.replay, Option.some.injEq] at hrep
    rw [← hst, ← hrep]
  · rintro rfl
    exact ⟨[], root, rfl, rfl, rfl⟩

theorem reachIn_succ {root : PState} {c : List Nat} {k : Nat}
    (h : reachIn root c (k + 1)) :
    ∃ (s' t : PState) (d : Direction) (ms : List Direction),
      ms.length = k ∧ root.replay ms = Option.some s' ∧
      s'.make_move d = Option.some t ∧ t.state = c := by
  obtain ⟨ms, s, hlen, hrep, hst⟩ := h
  rcases List.eq_nil_or_concat ms with rfl | ⟨ms0, d, rfl⟩
  · cases hlen
  · rw [List.concat_eq_append] at hrep
    rw [List.concat_eq_append, List.length_append, List.length_singleton] at hlen
    rw [PState.replay_snoc] at hrep
    cases hmid : root.replay ms0 with
    | none => rw [hmid] at hrep; cases hrep
    | some s' =>
      rw [hmid, Option.some_bind] at hrep
      exact ⟨s', s, d, ms0, by omega, hmid, hrep, hst⟩

theorem reachIn_step {root : PState} {s t : PState} {d : Direction}
    {ms : List Direction}
    (hrep : root.replay ms = Option.some s)
    (hm : s.make_move d = Option.some t) :
    reachIn root t.state (ms.length + 1) :=
  ⟨ms ++ [d], t, by simp,
    by rw [PState.replay_snoc, hrep, Option.some_bind]; exact hm, rfl⟩

/-- The evaluated move list computed at each BFS expansion. -/
def bfsChildren (s : PState) (visited : List (List Nat)) :
    List (Direction × PState × Quality) :=
  s.get_possible_moves.filterMap (fun d =>
    (s.make_move d).map (fun next_state =>
      (d, next_state, BFSSolver.evaluate_move next_state visited)))

/-- The enqueueing fold at the end of each BFS expansion. -/
def bfsFold (level : Nat) (pm : List (Direction × PState × Quality))
    (acc : List (PState × Nat) × List (List Nat)) :
    List (PState × Nat) × List (List Nat) :=
  pm.foldl
    (fun (acc : List (PState × Nat) × List (List Nat)) m =>
      if m.2.2 ≠ Quality.BAD ∧ m.2.1.state ∉ acc.2 then
        (acc.1 ++ [(m.2.1, level + 1)], m.2.1.state :: acc.2)
      else acc)
    acc

theorem BFSSolver.loop_cons (fuel : Nat) (s : PState) (level : Nat)
    (queue : List (PState × Nat)) (visited : List (List Nat))
    (ol : Option Nat) :
    BFSSolver.loop (fuel + 1) ((s, level) :: queue) visited ol =
      if s.is_goal then
        Option.some
          { status := PyField.dirs s.path, moves := pyOptNat ol,
            optimal_length := PyField.none }
      else if Config.MAX_DEPTH_BFS ≤ level then
        BFSSolver.loop fuel queue visited ol
      else
        BFSSolver.loop fuel
          (bfsFold level (bfsChildren s visited) (queue, visited)).1
          (bfsFold level (bfsChildren s visited) (queue, visited)).2 ol := rfl

theorem evaluate_move_bad_iff (t : PState) (visited : List (List Nat)) :
    BFSSolver.evaluate_move t visited = Quality.BAD ↔ t.state ∈ visited := by
  unfold BFSSolver.evaluate_move
  split_ifs with h <;> simp [h]

theorem mem_bfsChildren_of_move {s : PState} (visited : List (List Nat))
    {d : Direction} {t : PState} (h : s.make_move d = Option.some t) :
    (d, t, BFSSolver.evaluate_move t visited) ∈ bfsChildren s visited := by
  rw [bfsChildren, List.mem_filterMap]
  refine ⟨d, ?_, by rw [h]; rfl⟩
  rw [← PState.make_move_isSome_iff, h]
  rfl

theorem bfsChildren_mem {s : PState} {visited : List (List Nat)}
    {m : Direction × PState × Quality} (hm : m ∈ bfsChildren s visited) :
    s.make_move m.1 = Option.some m.2.1 ∧
      (m.2.2 = Quality.BAD ↔ m.2.1.state ∈ visited) := by
  rw [bfsChildren, List.mem_filterMap] at hm
  obtain ⟨d, _, hd⟩ := hm
  cases hmk : s.make_move d with
  | none => rw [hmk] at hd; cases hd
  | some t =>
    rw [hmk] at hd
    simp only [Option.map] at hd
    cases hd
    exact ⟨hmk, evaluate_move_bad_iff t visited⟩

theorem bfs_fold_spec (level : Nat) (visited0 : List (List Nat)) :
    ∀ (pm : List (Direction × PState × Quality)) (q0 : List (PState × Nat))
      (v0 : List (List Nat)),
      (∀ m ∈ pm, m.2.2 = Quality.BAD ↔ m.2.1.state ∈ visited0) →
      (∀ c ∈ visited0, c ∈ v0) →
      (∀ c ∈ v0, c ∈ (bfsFold level pm (q0, v0)).2) ∧
      (∀ c ∈ (bfsFold level pm (q0, v0)).2,
        c ∈ v0 ∨ ∃ m ∈ pm, m.2.1.state = c) ∧
      (∃ new, (bfsFold level pm (q0, v0)).1 = q0 ++ new ∧
        (∀ e ∈ new, e.2 = level + 1 ∧ (∃ m ∈ pm, m.2.1 = e.1) ∧
          e.1.state ∈ (bfsFold level pm (q0, v0)).2 ∧ e.1.state ∉ v0) ∧
        new.Pairwise (fun e f => e.1.state ≠ f.1.state) ∧
        (∀ c ∈ (bfsFold level pm (q0, v0)).2, c ∉ v0 →
          ∃ e ∈ new, e.1.state = c)) ∧
      (∀ m ∈ pm, m.2.1.state ∈ (bfsFold level pm (q0, v0)).2) := by
  intro pm
  induction pm with
  | nil =>
    intro q0 v0 _ hv0
    refine ⟨fun c hc => hc, fun c hc => Or.inl hc,
      ⟨[], (List.append_nil q0).symm, ?_, List.Pairwise.nil, ?_⟩, ?_⟩
    · intro e he; cases he
    · intro c hc hcn; exact absurd hc hcn
    · intro m hm; cases hm
  | cons m pm ih =>
    intro q0 v0 hq hv0
    by_cases hcond : m.2.2 ≠ Quality.BAD ∧ m.2.1.state ∉ v0
    · have hstep : bfsFold level (m :: pm) (q0, v0) =
          bfsFold level pm (q0 ++ [(m.2.1, level + 1)], m.2.1.state :: v0) := by
        simp only [bfsFold, List.foldl_cons, if_pos hcond]
      have hv0' : ∀ c ∈ visited0, c ∈ m.2.1.state :: v0 :=
        fun c hc => List.mem_cons_of_mem _ (hv0 c hc)
      have hq' : ∀ m' ∈ pm, m'.2.2 = Quality.BAD ↔ m'.2.1.state ∈ visited0 :=
        fun m' hm' => hq m' (List.mem_cons_of_mem _ hm')
      obtain ⟨g1, g2, ⟨new, hnew, hnewp, hnewd, g5⟩, g4⟩ :=
        ih (q0 ++ [(m.2.1, level + 1)]) (m.2.1.state :: v0) hq' hv0'
      rw [hstep]
      refine ⟨?_, ?_, ⟨(m.2.1, level + 1) :: new, ?_, ?_, ?_, ?_⟩, ?_⟩
      · intro c hc
        exact g1 c (List.mem_cons_of_mem _ hc)
      · intro c hc
        rcases g2 c hc with hcv | ⟨m', hm', hms⟩
        · rcases List.mem_cons.mp hcv with hce | hcv0
          · exact Or.inr ⟨m, List.mem_cons_self m pm, hce.symm⟩
          · exact Or.inl hcv0
        · exact Or.inr ⟨m', List.mem_cons_of_mem _ hm', hms⟩
      · rw [hnew, List.append_assoc]
        rfl
      · intro e he
        rcases List.mem_cons.mp he with rfl | he'
        · exact ⟨rfl, ⟨m, List.mem_cons_self m pm, rfl⟩,
            g1 _ (List.mem_cons_self _ _), hcond.2⟩
        · obtain ⟨ha, ⟨m', hm', hms⟩, hb, hcn⟩ := hnewp e he'
          exact ⟨ha, ⟨m', List.mem_cons_of_mem _ hm', hms⟩, hb,
            fun hc => hcn (List.mem_cons_of_mem _ hc)⟩
      · refine List.Pairwise.cons ?_ hnewd
        intro f hf
        have := (hnewp f hf).2.2.2
        intro he
        exact this (he ▸ List.mem_cons_self _ _)
      · intro c hc hcn
        by_cases hce : c = m.2.1.state
        · exact ⟨(m.2.1, level + 1), List.mem_cons_self _ _, hce.symm⟩
        · have hcn' : c ∉ m.2.1.state :: v0 := by
            intro hmem
            rcases List.mem_cons.mp hmem with h | h
            · exact hce h
            · exact hcn h
          obtain ⟨e, he, hes⟩ := g5 c hc hcn'
          exact ⟨e, List.mem_cons_of_mem _ he, hes⟩
      · intro m' hm'
        rcases List.mem_cons.mp hm' with rfl | hm''
        · exact g1 _ (List.mem_cons_self _ _)
        · exact g4 m' hm''
    · have hstep : bfsFold level (m :: pm) (q0, v0) =
          bfsFold level pm (q0, v0) := by
        simp only [bfsFold, List.foldl_cons, if_neg hcond]
      obtain ⟨g1, g2, ⟨new, hnew, hnewp, hnewd, g5⟩, g4⟩ := ih q0 v0
        (fun m' hm' => hq m' (List.mem_cons_of_mem _ hm')) hv0
      rw [hstep]
      refine ⟨g1, ?_, ⟨new, hnew, ?_, hnewd, g5⟩, ?_⟩
      · intro c hc
        rcases g2 c hc with hcv | ⟨m', hm', hms⟩
        · exact Or.inl hcv
        · exact Or.inr ⟨m', List.mem_cons_of_mem _ hm', hms⟩
      · intro e he
        obtain ⟨ha, ⟨m', hm', hms⟩, hb, hcn⟩ := hnewp e he
        exact ⟨ha, ⟨m', List.mem_cons_of_mem _ hm', hms⟩, hb, hcn⟩
      · intro m' hm'
        rcases List.mem_cons.mp hm' with rfl | hm''
        · have hmem : m'.2.1.state ∈ v0 := by
            rcases Decidable.not_and_iff_or_not.mp hcond with hbad | hnv
            · have : m'.2.2 = Quality.BAD := Decidable.not_not.mp hbad
              exact hv0 _ ((hq m' (List.mem_cons_self _ _)).mp this)
            · exact Decidable.not_not.mp hnv
          exact g1 _ hmem
        · exact g4 m' hm''

/-- The loop invariant of `BFSSolver.solve`: each queue entry replays its
recorded path from the root at its recorded level, the queue is level-sorted
within a window of one level and below the ceiling, entry levels are exact
graph-distance lower bounds, every configuration reachable within the head
level is already visited, no goal configuration has ever been popped, and
every visited configuration no longer in the queue was fully expanded (or is
pinned at the depth ceiling). -/
structure BfsInv (n : Nat) (root : PState) (q : List (PState × Nat))
    (V : List (List Nat)) : Prop where
  rootValid : ValidState n root
  pathOk : ∀ e ∈ q, root.replay e.1.path = Option.some e.1 ∧
    e.1.path.length = e.2
  sorted : q.Pairwise (fun e f => e.2 ≤ f.2)
  bounded : ∀ e ∈ q, ∀ f ∈ q.head?, e.2 ≤ f.2 + 1
  ceiling : ∀ e ∈ q, e.2 ≤ Config.MAX_DEPTH_BFS
  distLB : ∀ e ∈ q, ∀ k, reachIn root e.1.state k → e.2 ≤ k
  inVis : ∀ e ∈ q, e.1.state ∈ V
  distinct : q.Pairwise (fun e f => e.1.state ≠ f.1.state)
  complete : ∀ c k, reachIn root c k → ∀ f ∈ q.head?, k ≤ f.2 → c ∈ V
  noGoalGone : ∀ c ∈ V, isGoalConfig c = true → ∃ e ∈ q, e.1.state = c
  expanded : ∀ c ∈ V, (∀ e ∈ q, e.1.state ≠ c) →
    isGoalConfig c = false ∧
    ((∀ k, reachIn root c k → Config.MAX_DEPTH_BFS ≤ k) ∨
     (∀ (s' t : PState) (d : Direction), Reached root s' → s'.state = c →
        s'.make_move d = Option.some t → t.state ∈ V))

theorem BfsInv.pop_ceiling {n : Nat} {root s : PState} {level : Nat}
    {q : List (PState × Nat)} {V : List (List Nat)}
    (inv : BfsInv n root ((s, level) :: q) V)
    (hng : s.is_goal = false) (hlv : Config.MAX_DEPTH_BFS ≤ level) :
    BfsInv n root q V := by
  have hlevel : level = Config.MAX_DEPTH_BFS :=
    Nat.le_antisymm (inv.ceiling _ (List.mem_cons_self _ _)) hlv
  have hsrel : ∀ e ∈ q, level ≤ e.2 :=
    fun e he => (List.pairwise_cons.mp inv.sorted).1 e he
  refine
    { rootValid := inv.rootValid
      pathOk := fun e he => inv.pathOk e (List.mem_cons_of_mem _ he)
      sorted := (List.pairwise_cons.mp inv.sorted).2
      bounded := ?_
      ceiling := fun e he => inv.ceiling e (List.mem_cons_of_mem _ he)
      distLB := fun e he => inv.distLB e (List.mem_cons_of_mem _ he)
      inVis := fun e he => inv.inVis e (List.mem_cons_of_mem _ he)
      distinct := (List.pairwise_cons.mp inv.distinct).2
      complete := ?_
      noGoalGone := ?_
      expanded := ?_ }
  · intro e he f hf
    have h1 := inv.ceiling e (List.mem_cons_of_mem _ he)
    have h2 := hsrel f (List.mem_of_mem_head? hf)
    omega
  · intro c k hreach f hf hk
    have h2 := hsrel f (List.mem_of_mem_head? hf)
    have h3 := inv.ceiling f (List.mem_cons_of_mem _ (List.mem_of_mem_head? hf))
    refine inv.complete c k hreach (s, level) rfl ?_
    omega
  · intro c hc hg
    obtain ⟨e, he, hes⟩ := inv.noGoalGone c hc hg
    rcases List.mem_cons.mp he with rfl | he'
    · exfalso
      rw [is_goal_eq_config] at hng
      have : isGoalConfig c = false := by
        rw [← hes]
        exact hng
      rw [this] at hg
      cases hg
    · exact ⟨e, he', hes⟩
  · intro c hc hno
    by_cases hcs : c = s.state
    · subst hcs
      refine ⟨by rw [← is_goal_eq_config]; exact hng, Or.inl ?_⟩
      intro k hk
      have := inv.distLB (s, level) (List.mem_cons_self _ _) k hk
      omega
    · refine inv.expanded c hc ?_
      intro e he
      rcases List.mem_cons.mp he with rfl | he'
      · exact fun h => hcs h.symm
      · exact hno e he'

theorem pairwise_level_le_of_const {new : List (PState × Nat)} {lv : Nat}
    (h : ∀ e ∈ new, e.2 = lv) :
    new.Pairwise (fun e f => e.2 ≤ f.2) := by
  induction new with
  | nil => exact List.Pairwise.nil
  | cons a l ih =>
    refine List.Pairwise.cons ?_ (ih (fun e he => h e (List.mem_cons_of_mem _ he)))
    intro b hb
    rw [h a (List.mem_cons_self _ _), h b (List.mem_cons_of_mem _ hb)]

theorem BfsInv.pop_expand {n : Nat} {root s : PState} {level : Nat}
    {q : List (PState × Nat)} {V : List (List Nat)}
    (inv : BfsInv n root ((s, level) :: q) V)
    (hng : s.is_goal = false) (hlv : level < Config.MAX_DEPTH_BFS) :
    BfsInv n root (bfsFold level (bfsChildren s V) (q, V)).1
      (bfsFold level (bfsChildren s V) (q, V)).2 := by
  obtain ⟨g1, g2, ⟨new, hnew, hnewp, hnewd, g5⟩, g4⟩ :=
    bfs_fold_spec level V (bfsChildren s V) q V
      (fun m hm => (bfsChildren_mem hm).2) (fun c hc => hc)
  obtain ⟨hrepS, hlenS⟩ := inv.pathOk (s, level) (List.mem_cons_self _ _)
  have hvS : ValidState n s := replay_valid inv.rootValid hrepS
  have hnew_mv : ∀ e ∈ new, ∃ d : Direction, s.make_move d = Option.some e.1 := by
    intro e he
    obtain ⟨_, ⟨m, hm, hme⟩, _, _⟩ := hnewp e he
    exact ⟨m.1, hme ▸ (bfsChildren_mem hm).1⟩
  have hqsub : ∀ e ∈ q, e ∈ (bfsFold level (bfsChildren s V) (q, V)).1 := by
    intro e he
    rw [hnew]
    exact List.mem_append_left _ he
  have hnewsub : ∀ e ∈ new, e ∈ (bfsFold level (bfsChildren s V) (q, V)).1 := by
    intro e he
    rw [hnew]
    exact List.mem_append_right _ he
  have hmem_split : ∀ e ∈ (bfsFold level (bfsChildren s V) (q, V)).1,
      e ∈ q ∨ e ∈ new := by
    intro e he
    rw [hnew] at he
    exact List.mem_append.mp he
  have hqle : ∀ e ∈ q, level ≤ e.2 :=
    fun e he => (List.pairwise_cons.mp inv.sorted).1 e he
  have hqbd : ∀ e ∈ q, e.2 ≤ level + 1 :=
    fun e he => inv.bounded e (List.mem_cons_of_mem _ he) (s, level) rfl
  have hhead : ∀ f, ((bfsFold level (bfsChildren s V) (q, V)).1).head? = some f →
      level ≤ f.2 ∧ f.2 ≤ level + 1 ∧
        ∀ e ∈ (bfsFold level (bfsChildren s V) (q, V)).1, f.2 ≤ e.2 := by
    intro f hf
    rw [hnew] at hf
    cases hq0 : q.head? with
    | none =>
      have hqnil : q = [] := List.head?_eq_none_iff.mp hq0
      rw [hqnil, List.nil_append] at hf
      have hfmem : f ∈ new := List.mem_of_mem_head? hf
      have hf2 : f.2 = level + 1 := (hnewp f hfmem).1
      refine ⟨by omega, by omega, ?_⟩
      intro e he
      rcases hmem_split e he with heq | hen
      · rw [hqnil] at heq; cases heq
      · rw [hf2, (hnewp e hen).1]
    | some q0 =>
      have hq0mem : q0 ∈ q := List.mem_of_mem_head? hq0
      obtain ⟨qr, hqr⟩ : ∃ qr, q = q0 :: qr := by
        cases hqq : q with
        | nil => rw [hqq] at hq0; cases hq0
        | cons a l =>
          rw [hqq, List.head?_cons, Option.some.injEq] at hq0
          exact ⟨l, by rw [hq0]⟩
      have hff : f = q0 := by
        rw [hqr, List.cons_append, List.head?_cons, Option.some.injEq] at hf
        exact hf.symm
      subst hff
      refine ⟨hqle f hq0mem, hqbd f hq0mem, ?_⟩
      intro e he
      rcases hmem_split e he with heq | hen
      · rw [hqr] at heq
        rcases List.mem_cons.mp heq with rfl | he'
        · exact le_rfl
        · have hs := (List.pairwise_cons.mp inv.sorted).2
          rw [hqr] at hs
          exact (List.pairwise_cons.mp hs).1 e he'
      · have h1 := (hnewp e hen).1
        have h2 := hqbd f hq0mem
        omega
  refine
    { rootValid := inv.rootValid
      pathOk := ?_
      sorted := ?_
      bounded := ?_
      ceiling := ?_
      distLB := ?_
      inVis := ?_
      distinct := ?_
      complete := ?_
      noGoalGone := ?_
      expanded := ?_ }
  · -- pathOk
    intro e he
    rcases hmem_split e he with heq | hen
    · exact inv.pathOk e (List.mem_cons_of_mem _ heq)
    · obtain ⟨d, hd⟩ := hnew_mv e hen
      obtain ⟨p, _, _, _, _, hpath⟩ := PState.make_move_some hd
      constructor
      · rw [hpath, PState.replay_snoc, hrepS, Option.some_bind]
        exact hd
      · rw [hpath, List.length_append, List.length_singleton, hlenS,
          (hnewp e hen).1]
  · -- sorted
    rw [hnew, List.pairwise_append]
    refine ⟨(List.pairwise_cons.mp inv.sorted).2,
      pairwise_level_le_of_const (fun e he => (hnewp e he).1), ?_⟩
    intro a ha b hb
    have h1 := hqbd a ha
    have h2 := (hnewp b hb).1
    omega
  · -- bounded
    intro e he f hf
    obtain ⟨hf1, hf2, _⟩ := hhead f hf
    rcases hmem_split e he with heq | hen
    · have := hqbd e heq
      omega
    · have := (hnewp e hen).1
      omega
  · -- ceiling
    intro e he
    rcases hmem_split e he with heq | hen
    · exact inv.ceiling e (List.mem_cons_of_mem _ heq)
    · rw [(hnewp e hen).1]
      omega
  · -- distLB
    intro e he k hk
    rcases hmem_split e he with heq | hen
    · exact inv.distLB e (List.mem_cons_of_mem _ heq) k hk
    · rw [(hnewp e hen).1]
      by_contra hcon
      push_neg at hcon
      have hkV : e.1.state ∈ V :=
        inv.complete _ k hk (s, level) rfl (by omega)
      exact (hnewp e hen).2.2.2 hkV
  · -- inVis
    intro e he
    rcases hmem_split e he with heq | hen
    · exact g1 _ (inv.inVis e (List.mem_cons_of_mem _ heq))
    · exact (hnewp e hen).2.2.1
  · -- distinct
    rw [hnew, List.pairwise_append]
    refine ⟨(List.pairwise_cons.mp inv.distinct).2, hnewd, ?_⟩
    intro a ha b hb hab
    exact (hnewp b hb).2.2.2
      (hab ▸ inv.inVis a (List.mem_cons_of_mem _ ha))
  · -- complete
    intro c k hreach f hf hk
    obtain ⟨hf1, hf2, hfmin⟩ := hhead f hf
    by_cases hkl : k ≤ level
    · exact g1 c (inv.complete c k hreach (s, level) rfl hkl)
    · have hk1 : k = level + 1 := by omega
      subst hk1
      obtain ⟨s0, t, d, ms, hms, hrep0, hmv, hts⟩ := reachIn_succ hreach
      have hreachP : reachIn root s0.state level := ⟨ms, s0, hms, hrep0, rfl⟩
      have hPV : s0.state ∈ V :=
        inv.complete _ level hreachP (s, level) rfl le_rfl
      have hvS0 : ValidState n s0 := replay_valid inv.rootValid hrep0
      by_cases hps : s0.state = s.state
      · have hcongr := make_move_state_congr hvS0 hvS hps d
        rw [hmv] at hcongr
        cases hsm : s.make_move d with
        | none =>
          rw [hsm] at hcongr
          cases hcongr
        | some t' =>
          rw [hsm] at hcongr
          simp only [Option.map] at hcongr
          have hts' : t.state = t'.state := by
            injection hcongr
          have := g4 (d, t', BFSSolver.evaluate_move t' V)
            (mem_bfsChildren_of_move V hsm)
          rw [← hts, hts']
          exact this
      · have hnotq : ∀ e ∈ (s, level) :: q, e.1.state ≠ s0.state := by
          intro e he
          rcases List.mem_cons.mp he with rfl | he'
          · exact fun h => hps h.symm
          · intro hesp
            have h1 := inv.distLB e (List.mem_cons_of_mem _ he') level
              (hesp ▸ hreachP)
            have h2 := hfmin e (hqsub e he')
            omega
        obtain ⟨_, hdisj⟩ := inv.expanded _ hPV hnotq
        rcases hdisj with hceil | hnb
        · exfalso
          have := hceil level hreachP
          omega
        · have := hnb s0 t d ⟨ms, hrep0⟩ rfl hmv
          rw [← hts]
          exact g1 _ this
  · -- noGoalGone
    intro c hc hg
    by_cases hcv : c ∈ V
    · obtain ⟨e, he, hes⟩ := inv.noGoalGone c hcv hg
      rcases List.mem_cons.mp he with rfl | he'
      · exfalso
        rw [is_goal_eq_config] at hng
        have : isGoalConfig c = false := by
          rw [← hes]
          exact hng
        rw [this] at hg
        cases hg
      · exact ⟨e, hqsub e he', hes⟩
    · obtain ⟨e, he, hes⟩ := g5 c hc hcv
      exact ⟨e, hnewsub e he, hes⟩
  · -- expanded
    intro c hc hno
    by_cases hcs : c = s.state
    · subst hcs
      refine ⟨by rw [← is_goal_eq_config]; exact hng, Or.inr ?_⟩
      intro s' t d hr' hs' hmv'
      obtain ⟨ms', hrep'⟩ := hr'
      have hvS' : ValidState n s' := replay_valid inv.rootValid hrep'
      have hcongr := make_move_state_congr hvS' hvS hs' d
      rw [hmv'] at hcongr
      cases hsm : s.make_move d with
      | none =>
        rw [hsm] at hcongr
        cases hcongr
      | some t' =>
        rw [hsm] at hcongr
        simp only [Option.map] at hcongr
        have hts' : t.state = t'.state := by
          injection hcongr
        rw [hts']
        exact g4 (d, t', BFSSolver.evaluate_move t' V)
          (mem_bfsChildren_of_move V hsm)
    · by_cases hcv : c ∈ V
      · have hnotq : ∀ e ∈ (s, level) :: q, e.1.state ≠ c := by
          intro e he
          rcases List.mem_cons.mp he with rfl | he'
          · exact fun h => hcs h.symm
          · exact hno e (hqsub e he')
        obtain ⟨hgf, hdisj⟩ := inv.expanded c hcv hnotq
        refine ⟨hgf, ?_⟩
        rcases hdisj with hceil | hnb
        · exact Or.inl hceil
        · exact Or.inr (fun s' t d h1 h2 h3 => g1 _ (hnb s' t d h1 h2 h3))
      · exfalso
        obtain ⟨e, he, hes⟩ := g5 c hc hcv
        exact hno e (hnewsub e he) hes

theorem BfsInv.init {n : Nat} {root : PState} (hv : ValidState n root)
    (hpath : root.path = []) :
    BfsInv n root [(root, 0)] [root.state] := by
  have hrep : root.replay root.path = Option.some root := by
    rw [hpath]
    rfl
  refine
    { rootValid := hv
      pathOk := ?_
      sorted := List.pairwise_singleton _ _
      bounded := ?_
      ceiling := ?_
      distLB := ?_
      inVis := ?_
      distinct := List.pairwise_singleton _ _
      complete := ?_
      noGoalGone := ?_
      expanded := ?_ }
  · intro e he
    rw [List.mem_singleton] at he
    subst he
    exact ⟨hrep, by rw [hpath]; rfl⟩
  · intro e he f hf
    rw [List.mem_singleton] at he
    subst he
    cases hf
    omega
  · intro e he
    rw [List.mem_singleton] at he
    subst he
    simp [Config.MAX_DEPTH_BFS]
  · intro e he k hk
    rw [List.mem_singleton] at he
    subst he
    omega
  · intro e he
    rw [List.mem_singleton] at he
    subst he
    exact List.mem_singleton.mpr rfl
  · intro c k hreach f hf hk
    cases hf
    have hk0 : k = 0 := by omega
    subst hk0
    rw [List.mem_singleton]
    exact reachIn_zero.mp hreach
  · intro c hc hg
    rw [List.mem_singleton] at hc
    exact ⟨(root, 0), List.mem_singleton.mpr rfl, hc.symm⟩
  · intro c hc hno
    exfalso
    rw [List.mem_singleton] at hc
    exact hno (root, 0) (List.mem_singleton.mpr rfl) hc.symm

/-- Any result the BFS loop returns carries a path that solves the puzzle
from the root in the minimum possible number of moves. -/
theorem bfs_loop_min (fuel : Nat) :
    ∀ (q : List (PState × Nat)) (V : List (List Nat)) (ol : Option Nat)
      (n : Nat) (root : PState) (r : SolutionInfo),
      BfsInv n root q V →
      BFSSolver.loop fuel q V ol = Option.some r →
      ∃ ms, r = { status := PyField.dirs ms, moves := pyOptNat ol,
                  optimal_length := PyField.none } ∧
        SolvesFrom root ms ∧
        ∀ ms', SolvesFrom root ms' → ms.length ≤ ms'.length := by
  induction fuel with
  | zero =>
    intro q V ol n root r _ h
    simp [BFSSolver.loop] at h
  | succ f ih =>
    intro q V ol n root r inv h
    cases q with
    | nil => simp [BFSSolver.loop] at h
    | cons e rest =>
      obtain ⟨s, level⟩ := e
      rw [BFSSolver.loop_cons] at h
      by_cases hg : s.is_goal = true
      · rw [if_pos hg] at h
        have hmem : (s, level) ∈ (s, level) :: rest := List.mem_cons_self _ _
        obtain ⟨hrepS, hlenS⟩ := inv.pathOk (s, level) hmem
        refine ⟨s.path, ?_, ⟨s, hrepS, hg⟩, ?_⟩
        · injection h with h'
          exact h'.symm
        · rintro ms' ⟨t', hrep', hgoal'⟩
          have h1 := (PState.is_goal_iff s).mp hg
          have h2 := (PState.is_goal_iff t').mp hgoal'
          have hls : s.state.length = root.state.length :=
            PState.replay_length hrepS
          have hlt : t'.state.length = root.state.length :=
            PState.replay_length hrep'
          have hse : s.state = t'.state := by
            rw [h1, h2, hls, hlt]
          have hreach : reachIn root s.state ms'.length :=
            ⟨ms', t', rfl, hrep', hse.symm⟩
          have hlb : level ≤ ms'.length := inv.distLB (s, level) hmem _ hreach
          have hlen2 : s.path.length = level := hlenS
          omega
      · rw [if_neg hg] at h
        have hngf : s.is_goal = false := by
          cases hbo : s.is_goal with
          | false => rfl
          | true => exact absurd hbo hg
        by_cases hlv : Config.MAX_DEPTH_BFS ≤ level
        · rw [if_pos hlv] at h
          exact ih rest V ol n root r (inv.pop_ceiling hngf hlv) h
        · rw [if_neg hlv] at h
          exact ih _ _ ol n root r (inv.pop_expand hngf (by omega)) h

/-- Whenever `BFSSolver.solve` returns a result, the path in its status slot
solves the board in the minimum number of moves. -/
theorem bfs_solve_min {n : Nat} (b : Board) (ol : Option Nat)
    (r : SolutionInfo) (hv : ValidState n (PState.from_board b))
    (h : BFSSolver.solve b ol = Option.some r) :
    ∃ ms, r = { status := PyField.dirs ms, moves := pyOptNat ol,
                optimal_length := PyField.none } ∧
      SolvesFrom (PState.from_board b) ms ∧
      ∀ ms', SolvesFrom (PState.from_board b) ms' → ms.length ≤ ms'.length :=
  bfs_loop_min BFSSolver.fuel _ _ ol n _ r (BfsInv.init hv rfl) h

/-! ## A* correspondence and heap lemmas -/

/-- Forget the cost annotations of an A* state. -/
def AState.toP (a : AState) : PState :=
  { state := a.state, blank_pos := a.blank_pos, size := a.size, path := a.path }

theorem AState.manhattan_toP (a : AState) :
    a.manhattan_distance = a.toP.manhattan_distance := rfl

theorem AState.is_goal_toP (a : AState) : a.is_goal = a.toP.is_goal := rfl

theorem AState.make_move_unfold (a : AState) (d : Direction) :
    a.make_move d = (rawNewPos a.size a.blank_pos d).map (fun new_pos =>
      let next_state : AState :=
        { state := (a.state.set a.blank_pos (a.state.getD new_pos 0)).set
            new_pos (a.state.getD a.blank_pos 0),
          blank_pos := new_pos, size := a.size, path := a.path ++ [d],
          g_cost := a.g_cost + 1, h_cost := 0 }
      { next_state with h_cost := next_state.manhattan_distance }) := by
  cases d <;> simp only [AState.make_move, rawNewPos] <;> split <;>
    rename_i hsp <;> rw [hsp] <;> rfl

theorem AState.make_move_toP (a : AState) (d : Direction) :
    (a.make_move d).map AState.toP = a.toP.make_move d := by
  rw [AState.make_move_unfold, PState.make_move_eq, PState.newPos_eq_raw]
  have hsz : a.toP.size = a.size := rfl
  have hbp : a.toP.blank_pos = a.blank_pos := rfl
  rw [hsz, hbp]
  cases rawNewPos a.size a.blank_pos d <;> rfl

theorem AState.make_move_parts {a t : AState} {d : Direction}
    (h : a.make_move d = Option.some t) :
    a.toP.make_move d = Option.some t.toP ∧ t.g_cost = a.g_cost + 1 ∧
      t.h_cost = t.toP.manhattan_distance ∧ t.path = a.path ++ [d] := by
  have hcorr := AState.make_move_toP a d
  rw [h] at hcorr
  refine ⟨hcorr.symm ▸ rfl, ?_, ?_, ?_⟩ <;>
  · rw [AState.make_move_unfold] at h
    cases hp : rawNewPos a.size a.blank_pos d with
    | none => rw [hp] at h; cases h
    | some p =>
      rw [hp] at h
      simp only [Option.map] at h
      cases h
      rfl

theorem getD_mem_or {α : Type} (l : List α) (i : Nat) (d : α) :
    l.getD i d ∈ l ∨ l.getD i d = d := by
  by_cases h : i < l.length
  · left
    rw [List.getD_eq_getElem _ _ h]
    exact List.getElem_mem h
  · right
    rw [List.getD_eq_getElem?_getD, List.getElem?_eq_none (by omega)]
    rfl

theorem mem_siftdown {α : Type} (lt : α → α → Bool) :
    ∀ (fuel : Nat) (heap : List α) (newitem : α) (startpos pos : Nat) (x : α),
      x ∈ Heapq.siftdown lt fuel heap newitem startpos pos →
      x ∈ heap ∨ x = newitem := by
  intro fuel
  induction fuel with
  | zero =>
    intro heap newitem sp pos x hx
    simp only [Heapq.siftdown] at hx
    exact List.mem_or_eq_of_mem_set hx
  | succ f ih =>
    intro heap newitem sp pos x hx
    simp only [Heapq.siftdown] at hx
    split_ifs at hx
    · rcases ih _ _ _ _ _ hx with hm | hm
      · rcases List.mem_or_eq_of_mem_set hm with hm' | hm'
        · exact Or.inl hm'
        · rcases getD_mem_or heap ((pos - 1) / 2) newitem with hg | hg
          · exact Or.inl (hm' ▸ hg)
          · exact Or.inr (hm' ▸ hg)
      · exact Or.inr hm
    · exact List.mem_or_eq_of_mem_set hx
    · exact List.mem_or_eq_of_mem_set hx

theorem mem_siftup {α : Type} (lt : α → α → Bool) :
    ∀ (fuel : Nat) (heap : List α) (newitem : α) (startpos pos : Nat) (x : α),
      x ∈ Heapq.siftup lt fuel heap newitem startpos pos →
      x ∈ heap ∨ x = newitem := by
  intro fuel
  induction fuel with
  | zero =>
    intro heap newitem sp pos x hx
    simp only [Heapq.siftup] at hx
    rcases mem_siftdown lt _ _ _ _ _ _ hx with hm | hm
    · exact List.mem_or_eq_of_mem_set hm
    · exact Or.inr hm
  | succ f ih =>
    intro heap newitem sp pos x hx
    simp only [Heapq.siftup] at hx
    split_ifs at hx
    · rcases ih _ _ _ _ _ hx with hm | hm
      · rcases List.mem_or_eq_of_mem_set hm with hm' | hm'
        · exact Or.inl hm'
        · rcases getD_mem_or heap _ newitem with hg | hg
          · exact Or.inl (hm' ▸ hg)
          · exact Or.inr (hm' ▸ hg)
      · exact Or.inr hm
    · rcases ih _ _ _ _ _ hx with hm | hm
      · rcases List.mem_or_eq_of_mem_set hm with hm' | hm'
        · exact Or.inl hm'
        · rcases getD_mem_or heap _ newitem with hg | hg
          · exact Or.inl (hm' ▸ hg)
          · exact Or.inr (hm' ▸ hg)
      · exact Or.inr hm
    · rcases mem_siftdown lt _ _ _ _ _ _ hx with hm | hm
      · exact List.mem_or_eq_of_mem_set hm
      · exact Or.inr hm

theorem mem_heappush {α : Type} (lt : α → α → Bool) (heap : List α) (item x : α)
    (hx : x ∈ Heapq.heappush lt heap item) : x ∈ heap ∨ x = item := by
  simp only [Heapq.heappush] at hx
  rcases mem_siftdown lt _ _ _ _ _ _ hx with hm | hm
  · rcases List.mem_append.mp hm with hm' | hm'
    · exact Or.inl hm'
    · exact Or.inr (List.mem_singleton.mp hm')
  · exact Or.inr hm

theorem heappop_mem {α : Type} (lt : α → α → Bool) (heap : List α)
    (x : α) (rest : List α) (h : Heapq.heappop lt heap = Option.some (x, rest)) :
    x ∈ heap ∧ ∀ y ∈ rest, y ∈ heap := by
  simp only [Heapq.heappop] at h
  cases hlast : heap.getLast? with
  | none => rw [hlast] at h; cases h
  | some lastelt =>
    rw [hlast] at h
    have hlmem : lastelt ∈ heap := by
      obtain ⟨ys, hys⟩ := List.getLast?_eq_some_iff.mp hlast
      rw [hys]
      exact List.mem_append_right _ (List.mem_singleton.mpr rfl)
    cases hdrop : heap.dropLast with
    | nil =>
      rw [hdrop] at h
      simp only [Option.some.injEq, Prod.mk.injEq] at h
      obtain ⟨rfl, rfl⟩ := h
      exact ⟨hlmem, fun y hy => absurd hy (List.not_mem_nil y)⟩
    | cons h0 t0 =>
      rw [hdrop] at h
      simp only [Option.some.injEq, Prod.mk.injEq] at h
      obtain ⟨rfl, hrest⟩ := h
      constructor
      · exact List.mem_of_mem_dropLast (hdrop ▸ List.mem_cons_self _ _)
      · intro y hy
        rw [← hrest] at hy
        rcases mem_siftup lt _ _ _ _ _ _ hy with hm | hm
        · rcases List.mem_or_eq_of_mem_set hm with hm' | hm'
          · exact List.mem_of_mem_dropLast (hdrop ▸ hm')
          · exact hm' ▸ hlmem
        · exact hm ▸ hlmem

theorem manhattan_goal_zero (s : PState) (hg : s.is_goal = true) :
    s.manhattan_distance = 0 := by
  rw [manhattan_eq_sum]
  apply Finset.sum_eq_zero
  intro i hi
  rw [Finset.mem_range] at hi
  have hcfg := (PState.is_goal_iff s).mp hg
  rw [congrArg (fun l => List.getD l i 0) hcfg, goalConfig_getD hi]
  by_cases hc : i = s.state.length - 1
  · rw [if_pos hc]
    rfl
  · rw [if_neg hc]
    simp [tileTerm, Nat.dist_self]

/-- The Manhattan heuristic never overestimates the length of any solving
move sequence (admissibility). -/
theorem manhattan_admissible {n : Nat} :
    ∀ {ms : List Direction} {s final : PState},
      ValidState n s → s.replay ms = Option.some final →
      final.is_goal = true → s.manhattan_distance ≤ ms.length := by
  intro ms
  induction ms with
  | nil =>
    intro s final hv hrep hgoal
    simp only [PState.replay, Option.some.injEq] at hrep
    rw [hrep]
    rw [manhattan_goal_zero final hgoal]
    exact Nat.zero_le _
  | cons d rest ih =>
    intro s final hv hrep hgoal
    simp only [PState.replay] at hrep
    cases hm : s.make_move d with
    | none => rw [hm] at hrep; cases hrep
    | some u =>
      rw [hm] at hrep
      have h1 := manhattan_step_le s u d hv.1 hv.2.1 hv.2.2 hm
      have h2 := ih (make_move_valid hv hm) hrep hgoal
      simp only [List.length_cons]
      omega

/-- The evaluated move list computed at each A* expansion. -/
def astarChildren (cur : AState) (closed : List (List Nat)) :
    List (Direction × AState × Quality) :=
  cur.get_possible_moves.filterMap (fun d =>
    (cur.make_move d).map (fun next_state =>
      (d, next_state, AStarSolver.evaluate_move cur next_state closed)))

theorem AStarSolver.loop_succ (fuel : Nat) (open_set : List AState)
    (closed_set : List (List Nat)) (ol : Option Nat) :
    AStarSolver.loop (fuel + 1) open_set closed_set ol =
      match Heapq.heappop AState.lt open_set with
      | Option.none => Option.none
      | Option.some (current_state, open_rest) =>
        if current_state.state ∈ closed_set then
          AStarSolver.loop fuel open_rest closed_set ol
        else
          if current_state.is_goal then
            Option.some
              { status := PyField.dirs current_state.path,
                moves := pyOptNat ol, optimal_length := PyField.none }
          else
            AStarSolver.loop fuel
              ((astarChildren current_state closed_set).foldl
                (fun h m =>
                  if m.2.2 ≠ Quality.BAD ∧
                      m.2.1.state ∉ current_state.state :: closed_set then
                    Heapq.heappush AState.lt h m.2.1
                  else h)
                open_rest)
              (current_state.state :: closed_set) ol := rfl

theorem astarChildren_mem {cur : AState} {closed : List (List Nat)}
    {m : Direction × AState × Quality} (hm : m ∈ astarChildren cur closed) :
    cur.make_move m.1 = Option.some m.2.1 ∧
      m.2.2 = AStarSolver.evaluate_move cur m.2.1 closed := by
  rw [astarChildren, List.mem_filterMap] at hm
  obtain ⟨d, _, hd⟩ := hm
  cases hmk : cur.make_move d with
  | none => rw [hmk] at hd; cases hd
  | some t =>
    rw [hmk] at hd
    simp only [Option.map] at hd
    cases hd
    exact ⟨hmk, rfl⟩

theorem aquality_ne_bad {cur t : AState} {closed : List (List Nat)}
    (h : AStarSolver.evaluate_move cur t closed ≠ Quality.BAD) :
    t.f_cost ≤ cur.f_cost := by
  unfold AStarSolver.evaluate_move at h
  split_ifs at h with h1 h2 h3
  · exact absurd rfl h
  · omega
  · omega
  · exact absurd rfl h

/-- The loop invariant of `AStarSolver.solve`: every heap entry replays its
path from the root, its `g` is the path length, its `h` is the true
Manhattan distance of its configuration, and its f-cost equals the root
estimate `h0`. -/
def AInv (n : Nat) (rootP : PState) (h0 : Nat) (heap : List AState) : Prop :=
  ∀ a ∈ heap,
    ValidState n a.toP ∧
    rootP.replay a.path = Option.some a.toP ∧
    a.path.length = a.g_cost ∧
    a.h_cost = a.toP.manhattan_distance ∧
    a.g_cost + a.h_cost = h0

theorem astar_fold_inv {closed' : List (List Nat)} (P : AState → Prop)
    {pm : List (Direction × AState × Quality)}
    (hp : ∀ m ∈ pm, m.2.2 ≠ Quality.BAD → P m.2.1) :
    ∀ (h : List AState), (∀ y ∈ h, P y) →
      ∀ y ∈ pm.foldl
        (fun h m =>
          if m.2.2 ≠ Quality.BAD ∧ m.2.1.state ∉ closed' then
            Heapq.heappush AState.lt h m.2.1
          else h) h, P y := by
  induction pm with
  | nil =>
    intro h hh y hy
    exact hh y hy
  | cons m pm ih =>
    intro h hh y hy
    rw [List.foldl_cons] at hy
    by_cases hc : m.2.2 ≠ Quality.BAD ∧ m.2.1.state ∉ closed'
    · rw [if_pos hc] at hy
      refine ih (fun m' hm' hb => hp m' (List.mem_cons_of_mem _ hm') hb)
        _ ?_ y hy
      intro z hz
      rcases mem_heappush AState.lt h m.2.1 z hz with hz' | hz'
      · exact hh z hz'
      · exact hz' ▸ hp m (List.mem_cons_self _ _) hc.1
    · rw [if_neg hc] at hy
      exact ih (fun m' hm' hb => hp m' (List.mem_cons_of_mem _ hm') hb) h hh y hy

/-- Any result the A* loop returns carries a path that solves the puzzle
from the root in the minimum possible number of moves.  The f-cost of every
heap entry stays pinned at the root estimate `h0` because the pruning in
`evaluate_move` discards every child whose f-cost grows, while consistency
of the Manhattan heuristic forbids it to shrink. -/
theorem astar_loop_min (fuel : Nat) :
    ∀ (heap : List AState) (closed : List (List Nat)) (ol : Option Nat)
      (n : Nat) (rootP : PState) (h0 : Nat) (r : SolutionInfo),
      AInv n rootP h0 heap →
      (∀ (ms : List Direction) (final : PState),
        rootP.replay ms = Option.some final → final.is_goal = true →
        h0 ≤ ms.length) →
      AStarSolver.loop fuel heap closed ol = Option.some r →
      ∃ ms, r = { status := PyField.dirs ms, moves := pyOptNat ol,
                  optimal_length := PyField.none } ∧
        SolvesFrom rootP ms ∧
        ∀ ms', SolvesFrom rootP ms' → ms.length ≤ ms'.length := by
  induction fuel with
  | zero =>
    intro heap closed ol n rootP h0 r _ _ h
    simp [AStarSolver.loop] at h
  | succ f ih =>
    intro heap closed ol n rootP h0 r inv hadm h
    rw [AStarSolver.loop_succ] at h
    cases hpop : Heapq.heappop AState.lt heap with
    | none => rw [hpop] at h; cases h
    | some pr =>
      obtain ⟨cur, rest⟩ := pr
      rw [hpop] at h
      simp only at h
      obtain ⟨hcurmem, hrest⟩ := heappop_mem _ _ _ _ hpop
      have hinvrest : AInv n rootP h0 rest := fun a ha => inv a (hrest a ha)
      by_cases hcl : cur.state ∈ closed
      · rw [if_pos hcl] at h
        exact ih rest closed ol n rootP h0 r hinvrest hadm h
      · rw [if_neg hcl] at h
        obtain ⟨hvc, hrepc, hlenc, hhc, hfc⟩ := inv cur hcurmem
        by_cases hg : cur.is_goal = true
        · rw [if_pos hg] at h
          refine ⟨cur.path, ?_, ⟨cur.toP, hrepc, ?_⟩, ?_⟩
          · injection h with h'
            exact h'.symm
          · rw [← AState.is_goal_toP]
            exact hg
          · rintro ms' ⟨t', hrep', hgoal'⟩
            have hz : cur.toP.manhattan_distance = 0 :=
              manhattan_goal_zero _ (by rw [← AState.is_goal_toP]; exact hg)
            have hbound := hadm ms' t' hrep' hgoal'
            omega
        · rw [if_neg hg] at h
          refine ih _ _ ol n rootP h0 r ?_ hadm h
          intro a ha
          refine astar_fold_inv
            (fun a => ValidState n a.toP ∧
              rootP.replay a.path = Option.some a.toP ∧
              a.path.length = a.g_cost ∧
              a.h_cost = a.toP.manhattan_distance ∧
              a.g_cost + a.h_cost = h0)
            ?_ rest (fun y hy => inv y (hrest y hy)) a ha
          intro m hm hb
          obtain ⟨hmk, hqual⟩ := astarChildren_mem hm
          obtain ⟨hmkP, hgc, hhcm, hpath⟩ := AState.make_move_parts hmk
          have hvt : ValidState n m.2.1.toP := make_move_valid hvc hmkP
          have hreplay : rootP.replay m.2.1.path = Option.some m.2.1.toP := by
            rw [hpath, PState.replay_snoc, hrepc, Option.some_bind]
            exact hmkP
          have hlen : m.2.1.path.length = m.2.1.g_cost := by
            rw [hpath, List.length_append, List.length_singleton, hlenc, hgc]
          have hfle : m.2.1.f_cost ≤ cur.f_cost :=
            aquality_ne_bad (hqual ▸ hb)
          have hstep : cur.toP.manhattan_distance ≤
              m.2.1.toP.manhattan_distance + 1 :=
            manhattan_step_le _ _ m.1 hvc.1 hvc.2.1 hvc.2.2 hmkP
          have hffix : m.2.1.g_cost + m.2.1.h_cost = h0 := by
            have e1 : m.2.1.f_cost = m.2.1.g_cost + m.2.1.h_cost := rfl
            have e2 : cur.f_cost = cur.g_cost + cur.h_cost := rfl
            rw [e1, e2] at hfle
            omega
          exact ⟨hvt, hreplay, hlen, hhcm, hffix⟩

theorem flatten_grid_map (m k : Nat) (f : Nat → Nat) :
    ((List.range m).map (fun i =>
      (List.range k).map (fun j => f (i * k + j)))).flatten =
      (List.range (m * k)).map f := by
  induction m with
  | zero => simp
  | succ m ih =>
    rw [List.range_succ, List.map_append, List.flatten_append, ih]
    rw [Nat.succ_mul, List.range_add, List.map_append, List.map_map]
    simp

theorem map_getD_range (l : List Nat) :
    (List.range l.length).map (fun i => l.getD i 0) = l := by
  refine List.ext_getElem (by simp) ?_
  intro i h1 h2
  rw [List.getElem_map, List.getElem_range, List.getD_eq_getElem _ _ h2]

theorem from_board_state (b : Board) (hlen : b.state.length = b.size * b.size) :
    (PState.from_board b).state = b.state := by
  show (Board.get_state b).flatten = b.state
  rw [Board.get_state,
    flatten_grid_map b.size b.size (fun idx => b.state.getD idx 0), ← hlen,
    map_getD_range]

theorem board_manhattan_eq (b : Board)
    (hlen : b.state.length = b.size * b.size) :
    b.manhattan_distance = (PState.from_board b).manhattan_distance := by
  unfold Board.manhattan_distance PState.manhattan_distance
  rw [from_board_state b hlen]
  rfl

/-- Whenever `AStarSolver.solve` returns a result, the path in its status
slot solves the board in the minimum number of moves. -/
theorem astar_solve_min {n : Nat} (b : Board) (ol : Option Nat)
    (r : SolutionInfo) (hv : ValidState n (PState.from_board b))
    (hlen : b.state.length = b.size * b.size)
    (h : AStarSolver.solve b ol = Option.some r) :
    ∃ ms, r = { status := PyField.dirs ms, moves := pyOptNat ol,
                optimal_length := PyField.none } ∧
      SolvesFrom (PState.from_board b) ms ∧
      ∀ ms', SolvesFrom (PState.from_board b) ms' →
        ms.length ≤ ms'.length := by
  have htop : (AState.from_board b).toP = PState.from_board b := rfl
  have hinv : AInv n (PState.from_board b)
      ((PState.from_board b).manhattan_distance)
      (Heapq.heappush AState.lt [] (AState.from_board b)) := by
    intro a ha
    rcases mem_heappush AState.lt [] (AState.from_board b) a ha with h0 | h0
    · cases h0
    · subst h0
      refine ⟨htop ▸ hv, ?_, rfl, ?_, ?_⟩
      · rw [htop]
        rfl
      · show b.manhattan_distance = (AState.from_board b).toP.manhattan_distance
        rw [htop]
        exact board_manhattan_eq b hlen
      · show 0 + b.manhattan_distance = (PState.from_board b).manhattan_distance
        rw [Nat.zero_add]
        exact board_manhattan_eq b hlen
  have h' : AStarSolver.loop AStarSolver.fuel
      (Heapq.heappush AState.lt [] (AState.from_board b)) [] ol =
      Option.some r := h
  exact astar_loop_min AStarSolver.fuel _ _ ol n _ _ r hinv
    (fun ms final hrep hgoal => manhattan_admissible hv hrep hgoal) h'

/-- **C1** (counterexample): the board `[[2,3,1],[4,5,6],[7,8,0]]` is
solvable — replaying the explicit 16-move sequence `astarMissSolution`
reaches the goal — yet the A* solver's `solve` returns Python `None` for
it: its pruning drops every child whose f-cost exceeds the parent's, and
from this board no strictly descending-heuristic path exists. -/
theorem c1_counterexample_astar_misses_solvable_board :
    ((PState.from_board boardAstarMiss).replay astarMissSolution).map
        PState.is_goal = Option.some true ∧
      AStarSolver.solve boardAstarMiss Option.none = Option.none := by decide

/-- **C1** (amended): whenever the BFS solver's `solve` or the A* solver's
`solve` returns a result, the move sequence carried in the result's status
slot transforms the initial configuration into the goal and its length
equals the minimum number of legal blank slides from the initial
configuration to the goal configuration (the true graph distance); the A*
solver, however, returns no result at all for some solvable boards. -/
theorem c1_amended_returned_solutions_minimal {n : Nat} (b : Board)
    (ol : Option Nat) (hv : ValidState n (PState.from_board b))
    (hlen : b.state.length = b.size * b.size) :
    (∀ r, BFSSolver.solve b ol = Option.some r →
      ∃ ms, r.status = PyField.dirs ms ∧
        SolvesFrom (PState.from_board b) ms ∧
        ∀ ms', SolvesFrom (PState.from_board b) ms' →
          ms.length ≤ ms'.length) ∧
    (∀ r, AStarSolver.solve b ol = Option.some r →
      ∃ ms, r.status = PyField.dirs ms ∧
        SolvesFrom (PState.from_board b) ms ∧
        ∀ ms', SolvesFrom (PState.from_board b) ms' →
          ms.length ≤ ms'.length) := by
  constructor
  · intro r h
    obtain ⟨ms, hr, hs, hmin⟩ := bfs_solve_min b ol r hv h
    exact ⟨ms, by rw [hr], hs, hmin⟩
  · intro r h
    obtain ⟨ms, hr, hs, hmin⟩ := astar_solve_min b ol r hv hlen h
    exact ⟨ms, by rw [hr], hs, hmin⟩

/-- Witness for the amended C1 at the scenario A board. -/
theorem c1_amended_returned_solutions_minimal_witness :
    (∀ r, BFSSolver.solve boardScenarioA Option.none = Option.some r →
      ∃ ms, r.status = PyField.dirs ms ∧
        SolvesFrom (PState.from_board boardScenarioA) ms ∧
        ∀ ms', SolvesFrom (PState.from_board boardScenarioA) ms' →
          ms.length ≤ ms'.length) ∧
    (∀ r, AStarSolver.solve boardScenarioA Option.none = Option.some r →
      ∃ ms, r.status = PyField.dirs ms ∧
        SolvesFrom (PState.from_board boardScenarioA) ms ∧
        ∀ ms', SolvesFrom (PState.from_board boardScenarioA) ms' →
          ms.length ≤ ms'.length) :=
  c1_amended_returned_solutions_minimal (n := 3) boardScenarioA Option.none
    ⟨by decide, by decide, by decide⟩ (by decide)
